import Mathlib

/-!
# Verification of the stack-to-register promotion pass (SILMem2Reg)

This file gives a shallow embedding, in Lean 4, of the core algorithms of the
stack-to-register promotion pass implemented in
`lib/SILOptimizer/Transforms/SILMem2Reg.cpp`, and proves (or refutes) a set of
claims about that pass.

The embedding is organised into components, mirroring the source:

* the capture analyzer (`isCaptured` / `isAddressForLoad`), modelled over trees
  of address uses (projection chains are explicit tree nodes);
* the live-in / live-out resolution (`getLiveInValue` / `getLiveOutValue`),
  modelled over an abstract dominator-tree interface, with the source's
  idom-chain loop rendered as a fuel-indexed walk;
* the phi-placement loop (`promoteAllocationToPhi`), modelled over an abstract
  dominance oracle, with the priority queue rendered as a pop-max list;
* the per-block scans (`promoteAllocationInBlock`,
  `removeSingleBlockAllocation`) and the orchestrator
  (`promoteSingleAllocation`, `MemoryToRegisters::run`), modelled over an
  executable instruction-list IR without projection instructions (the direct
  slot uses the orchestrator dispatches on; projection chains are covered by
  the capture-analyzer model).

Machine pointers (`SILValue` identity) are modelled by value identifiers;
`SILValue()` / null is modelled by `Option`.
-/

namespace Mem2Reg

/-- Ownership qualifier of a `LoadInst` (`LoadOwnershipQualifier`). -/
inductive LoadQual where
  | unqualified
  | take
  | copy
  | trivialQ
  deriving DecidableEq

/-- Ownership qualifier of a `StoreInst` (`StoreOwnershipQualifier`). -/
inductive StoreQual where
  | unqualified
  | init
  | assign
  | trivialQ
  deriving DecidableEq

/-! ## Capture analyzer (`isAddressForLoad`, `isCaptured`)

A use of the `alloc_stack` address is either a direct instruction or an
address projection (`struct_element_addr` / `tuple_element_addr` /
`unchecked_addr_cast`) whose own uses are traversed recursively.  We model a
use as a tree: each node records the basic block of the user instruction, and
projection nodes carry the list of uses of the projected address. -/

/-- Kind of an address projection instruction: `struct_element_addr`,
`tuple_element_addr`, or `unchecked_addr_cast`. -/
inductive ProjKind where
  | structP
  | tupleP
  | castP
  deriving DecidableEq

/-- Whether a projection is an aggregate-field projection, i.e. lowers to an
extraction with guaranteed ownership (`StructElementAddrInst` or
`TupleElementAddrInst` in the source, which set `hasGuaranteedOwnership`). -/
def ProjKind.isAgg : ProjKind → Bool
  | .structP => true
  | .tupleP => true
  | .castP => false

/-- A user of an address value, as the capture analyzer sees it.  `blk` is the
basic block of the user instruction.  `proj` carries the uses of the projected
address.  `destroyAddrU` records whether the operand type is loadable
(`DAI->getOperand()->getType().isLoadable(...)`). -/
inductive AddrUser where
  | load (blk : Nat) (q : LoadQual)
  | proj (blk : Nat) (k : ProjKind) (users : List AddrUser)
  | storeDest (blk : Nat)
  | storeAddrSrc (blk : Nat)
  | deallocU (blk : Nat)
  | debugValueAddrU (blk : Nat)
  | destroyAddrU (blk : Nat) (loadable : Bool)
  | otherU (blk : Nat)

/-- Basic block of the user instruction (`II->getParent()`). -/
def AddrUser.blk : AddrUser → Nat
  | .load b _ => b
  | .proj b _ _ => b
  | .storeDest b => b
  | .storeAddrSrc b => b
  | .deallocU b => b
  | .debugValueAddrU b => b
  | .destroyAddrU b _ => b
  | .otherU b => b

/-- State threaded through `isAddressForLoad`: the single-block tracker
(`SILBasicBlock *&singleBlock`, null modelled as `none`) and the
`bool &hasGuaranteedOwnership` reference. -/
structure AFLState where
  sb : Option Nat
  hgo : Bool
  deriving DecidableEq

/-- Update of the single-block tracker performed for each visited user:
`if (II->getParent() != singleBlock) singleBlock = nullptr;`. -/
def sbUpdate (sb : Option Nat) (b : Nat) : Option Nat :=
  if sb = some b then sb else none

mutual

/-- Model of `isAddressForLoad` (SILMem2Reg.cpp:190-226).  Returns whether the
tree of uses rooted at this user consists only of loads behind projections
(with the `load [take]`-through-aggregate-projection exception), together with
the mutated by-reference state.  The user's own block is checked by the
*caller* (either `isCaptured`'s loop or the recursive loop over a projection's
uses), matching the source. -/
def isAddressForLoad : AddrUser → AFLState → (Bool × AFLState)
  | .load _ q, st =>
    -- SILMem2Reg is disabled for (load [take] (struct/tuple_element_addr %ASI)).
    if st.hgo ∧ q = .take then (false, st) else (true, st)
  | .proj _ k users, st =>
    let st := if k.isAgg then { st with hgo := true } else st
    isAddressForLoadList users st
  | _, st => (false, st)

/-- The recursive loop over a projection's uses
(`for (auto UI : cast<SingleValueInstruction>(I)->getUses())`), updating the
single-block tracker for each user and stopping at the first failure. -/
def isAddressForLoadList : List AddrUser → AFLState → (Bool × AFLState)
  | [], st => (true, st)
  | u :: us, st =>
    let st := { st with sb := sbUpdate st.sb u.blk }
    match isAddressForLoad u st with
    | (false, st) => (false, st)
    | (true, st) => isAddressForLoadList us st

end

/-- The loop body of `isCaptured` (SILMem2Reg.cpp:245-285) over the use list of
the `alloc_stack`, threading the single-block tracker.  Returns
`(captured, finalTracker)`. -/
def capturedLoop : List AddrUser → Option Nat → (Bool × Option Nat)
  | [], sb => (false, sb)
  | u :: us, sb =>
    let sb := sbUpdate sb u.blk
    -- Loads are okay (each user gets a fresh hasGuaranteedOwnership = false).
    match isAddressForLoad u { sb := sb, hgo := false } with
    | (true, st) => capturedLoop us st.sb
    | (false, st) =>
      match u with
      -- We can store into an AllocStack (but not the pointer).
      | .storeDest _ => capturedLoop us st.sb
      -- Deallocation is also okay, as are DebugValueAddr.
      | .deallocU _ => capturedLoop us st.sb
      | .debugValueAddrU _ => capturedLoop us st.sb
      -- Destroys of loadable types can be rewritten as releases.
      | .destroyAddrU _ loadable =>
        if loadable then capturedLoop us st.sb else (true, st.sb)
      -- Other instructions are assumed to capture the AllocStack.
      | _ => (true, st.sb)

/-- Model of `isCaptured` (SILMem2Reg.cpp:245-285).  `asiBlk` is the parent
block of the `alloc_stack`; the single-block tracker starts at it.  Returns
`(captured, inSingleBlock)`; on capture the caller's `inSingleBlock` keeps its
initial value `false`. -/
def isCapturedT (asiBlk : Nat) (users : List AddrUser) : Bool × Bool :=
  match capturedLoop users (some asiBlk) with
  | (true, _) => (true, false)
  | (false, sb) => (false, sb.isSome)

mutual

/-- A load that consumes (takes) its operand is reachable from this user
through a projection path that crosses at least one aggregate-field
(struct/tuple) projection; `seen` records whether such a projection has
already been crossed on the path from the slot. -/
def hasAggTake (seen : Bool) : AddrUser → Bool
  | .load _ q => seen && decide (q = .take)
  | .proj _ k users => hasAggTakeList (seen || k.isAgg) users
  | _ => false

/-- List version of `hasAggTake`. -/
def hasAggTakeList (seen : Bool) : List AddrUser → Bool
  | [] => false
  | u :: us => hasAggTake seen u || hasAggTakeList seen us

end

mutual

/-- Every node of this use tree (the user itself and, through projection
chains, all transitive users) lies in block `b`. -/
def allNodesIn (b : Nat) : AddrUser → Bool
  | .proj bb _ users => decide (bb = b) && allNodesInList b users
  | u => decide (u.blk = b)

/-- List version of `allNodesIn`. -/
def allNodesInList (b : Nat) : List AddrUser → Bool
  | [] => true
  | u :: us => allNodesIn b u && allNodesInList b us

end

/-! ## Live-in / live-out resolution (`getLiveOutValue`, `getLiveInValue`)

The dominator tree is an abstract interface (the Dominance Oracle of the
spec): `idom` is the immediate dominator (`none` at the root and at blocks
outside the tree), `inTree b` models `DT->getNode(b) != nullptr`.  The values
the source returns (`St->getSrc()`, `BB->getArgument(NumArguments - 1)`,
`SILUndef`) are abstracted by a type `α` with `lastStore : Nat → Option α`
(present-and-non-null entries of `LastStoreInBlock`, mapped to the store's
source operand), `phiArg : Nat → α` (the block's last argument) and
`undefV : α`.  The source's idom-chain `for` loop is rendered as a
fuel-indexed walk; the fuel stands for the finiteness of the dominator tree
and is instantiated large enough that it is never exhausted on a real tree. -/

section Liveness

variable {α : Type}

/-- The `for (Node = ...; Node; Node = Node->getIDom())` loop of
`getLiveOutValue` (SILMem2Reg.cpp:692-714); the `Option Nat` argument is the
current `DomTreeNode` (null modelled as `none`); falling off the tree returns
the undef placeholder (SILMem2Reg.cpp:716). -/
def liveOutLoop (idom : Nat → Option Nat) (lastStore : Nat → Option α)
    (phiMem : Nat → Bool) (phiArg : Nat → α) (undefV : α) :
    Nat → Option Nat → α
  | _, none => undefV
  | 0, some _ => undefV
  | fuel + 1, some b =>
    match lastStore b with
    | some v => v
    | none =>
      if phiMem b then phiArg b
      else liveOutLoop idom lastStore phiMem phiArg undefV fuel (idom b)

/-- Model of `StackAllocationPromoter::getLiveOutValue`
(SILMem2Reg.cpp:687-717): enter the idom walk at `DT->getNode(StartBB)`,
which is null when `StartBB` is outside the dominator tree. -/
def getLiveOutValueM (idom : Nat → Option Nat) (inTree : Nat → Bool)
    (lastStore : Nat → Option α) (phiMem : Nat → Bool) (phiArg : Nat → α)
    (undefV : α) (fuel : Nat) (startBB : Nat) : α :=
  liveOutLoop idom lastStore phiMem phiArg undefV fuel
    (if inTree startBB then some startBB else none)

/-- Model of `StackAllocationPromoter::getLiveInValue`
(SILMem2Reg.cpp:719-741).  The `idom = none` case is the path on which the
source asserts (release builds would dereference null); following §7 of the
spec it degrades to the undef placeholder. -/
def getLiveInValueM (idom : Nat → Option Nat) (inTree : Nat → Bool)
    (predEmpty : Nat → Bool) (lastStore : Nat → Option α)
    (phiMem : Nat → Bool) (phiArg : Nat → α) (undefV : α)
    (fuel : Nat) (bb : Nat) : α :=
  if phiMem bb then phiArg bb
  else if predEmpty bb ∨ ¬ inTree bb then undefV
  else
    match idom bb with
    | some d => getLiveOutValueM idom inTree lastStore phiMem phiArg undefV fuel d
    | none => undefV

/-- Modelled from the spec: live-out(B) is B's retained store's operand if one
was recorded, else B's own parameter if B is a phi block, else live-out of B's
immediate dominator, with the walk past the dominator-tree root yielding the
undefined placeholder.  Stated as a direct recursion (fuel-indexed for
termination, exhaustion also yielding the placeholder). -/
def specLiveOut (idom : Nat → Option Nat) (lastStore : Nat → Option α)
    (phiMem : Nat → Bool) (phiArg : Nat → α) (undefV : α) :
    Nat → Nat → α
  | 0, _ => undefV
  | fuel + 1, b =>
    match lastStore b with
    | some v => v
    | none =>
      if phiMem b then phiArg b
      else
        match idom b with
        | some d => specLiveOut idom lastStore phiMem phiArg undefV fuel d
        | none => undefV

/-- Modelled from the spec: live-in(B) is B's own newly added parameter if B
is a phi block, else an undefined-value placeholder if B has no predecessors
or is not in the dominator tree, else live-out of B's immediate dominator. -/
def specLiveIn (idom : Nat → Option Nat) (inTree : Nat → Bool)
    (predEmpty : Nat → Bool) (lastStore : Nat → Option α)
    (phiMem : Nat → Bool) (phiArg : Nat → α) (undefV : α)
    (fuel : Nat) (bb : Nat) : α :=
  if phiMem bb then phiArg bb
  else if predEmpty bb ∨ ¬ inTree bb then undefV
  else
    match idom bb with
    | some d => specLiveOut idom lastStore phiMem phiArg undefV fuel d
    | none => undefV

end Liveness

/-! ## Phi placement (`promoteAllocationToPhi`, SILMem2Reg.cpp:875-977)

The dominance oracle collects the queries the source makes of
`DominanceInfo` and of the precomputed `DomTreeLevelMap`. -/

/-- The Dominance Oracle interface: immediate dominator, dominator-tree
children, membership in the dominator tree (`DT->getNode(b) != nullptr`),
dominator-tree level, `dominates` and `properlyDominates`. -/
structure DomOracle where
  idom : Nat → Option Nat
  children : Nat → List Nat
  inTree : Nat → Bool
  level : Nat → Nat
  dom : Nat → Nat → Bool
  pdom : Nat → Nat → Bool

/-- A reference to one user of the `alloc_stack`, with the data the
deallocation scan and the phi-placement seeding inspect: whether the user is
a `StoreInst`, whether it is a `DeallocStackInst`, and its parent block. -/
structure UserRef where
  isStore : Bool
  isDealloc : Bool
  parent : Nat
  deriving DecidableEq

/-- The constructor scan of `StackAllocationPromoter`
(SILMem2Reg.cpp:88-102): record the single deallocation instruction's parent
block; on meeting a second deallocation, reset to null and stop. -/
def findDeallocGo : List UserRef → Option Nat → Option Nat
  | [], acc => acc
  | u :: us, acc =>
    if u.isDealloc then
      match acc with
      | some _ => none
      | none => findDeallocGo us (some u.parent)
    else findDeallocGo us acc

/-- The unique deallocation's parent block, if exactly one deallocation use
exists (`DSI` of `StackAllocationPromoter`, at block granularity). -/
def findDealloc (users : List UserRef) : Option Nat :=
  findDeallocGo users none

/-- Static data of one phi-placement run: the oracle, the CFG successor map,
the parent block of the `alloc_stack` and the parent block of the unique
deallocation (if known). -/
structure PhiEnv where
  oracle : DomOracle
  succs : Nat → List Nat
  asiBlk : Nat
  dsiBlk : Option Nat

/-- Mutable state of the placement loop: the accepted phi blocks (insertion
order), the visited frontier nodes, and the priority queue contents
(block, level). -/
structure PhiState where
  phiBlocks : List Nat
  visited : List Nat
  pq : List (Nat × Nat)

/-- Pop a maximal-level entry from the queue (the behaviour of
`std::priority_queue` with `llvm::less_second`; ties resolved towards the
front of the list). -/
def popMax : List (Nat × Nat) → Option ((Nat × Nat) × List (Nat × Nat))
  | [] => none
  | p :: ps =>
    match popMax ps with
    | none => some (p, [])
    | some (q, rest) => if q.2 ≤ p.2 then some (p, ps) else some (q, p :: rest)

/-- The per-successor body of the frontier scan (SILMem2Reg.cpp:923-954):
skip dominator-tree edges, skip successors deeper than the root, skip visited
nodes (marking), reject blocks not dominated by the allocation's block,
reject blocks properly dominated by the unique deallocation's block, and
accept the rest as new phi blocks, re-seeding the queue. -/
def processSucc (e : PhiEnv) (rootLevel node : Nat) (st : PhiState)
    (succ : Nat) : PhiState :=
  if e.oracle.idom succ = some node then st
  else if rootLevel < e.oracle.level succ then st
  else if succ ∈ st.visited then st
  else
    let st := { st with visited := succ :: st.visited }
    if ¬ e.oracle.dom e.asiBlk succ then st
    else if (match e.dsiBlk with
             | some d => e.oracle.pdom d succ
             | none => false) then st
    else if succ ∈ st.phiBlocks then st
    else { st with phiBlocks := st.phiBlocks ++ [succ],
                   pq := (succ, e.oracle.level succ) :: st.pq }

/-- Fold of `processSucc` over a node's CFG successors. -/
def processSuccList (e : PhiEnv) (rootLevel node : Nat) :
    List Nat → PhiState → PhiState
  | [], st => st
  | s :: ss, st => processSuccList e rootLevel node ss (processSucc e rootLevel node st s)

/-- The depth-first walk over the dominator subtree of the popped root
(SILMem2Reg.cpp:918-960), worklist-driven (head of the list is the top of the
stack; dominator-tree children are pushed so that the last child is processed
first, as with `push_back`/`pop_back_val`). -/
def innerDFS (e : PhiEnv) (rootLevel : Nat) :
    Nat → List Nat → PhiState → PhiState
  | 0, _, st => st
  | _, [], st => st
  | fuel + 1, node :: rest, st =>
    let st := processSuccList e rootLevel node (e.succs node) st
    let kids := (e.oracle.children node).filter (fun c => ¬ st.visited.contains c)
    innerDFS e rootLevel fuel (kids.reverse ++ rest) st

/-- The outer loop over the priority queue (SILMem2Reg.cpp:906-961). -/
def phiOuter (e : PhiEnv) : Nat → Nat → PhiState → PhiState
  | 0, _, st => st
  | fuelO + 1, fuelI, st =>
    match popMax st.pq with
    | none => st
    | some ((node, lvl), pq) =>
      phiOuter e fuelO fuelI (innerDFS e lvl fuelI [node] { st with pq := pq })

/-- Run the placement loop from the given seed blocks (the parents of the
store users; only blocks in the dominator tree are seeded,
SILMem2Reg.cpp:887-895). -/
def placePhiBlocks (e : PhiEnv) (seeds : List Nat) (fuelO fuelI : Nat) :
    List Nat :=
  let pq := seeds.filterMap
    (fun b => if e.oracle.inTree b then some (b, e.oracle.level b) else none)
  (phiOuter e fuelO fuelI { phiBlocks := [], visited := [], pq := pq }).phiBlocks

/-- Phi placement for one slot, from the slot's use list: the unique
deallocation block is computed by the constructor scan, and the queue is
seeded with the parents of the store users. -/
def promoteToPhiBlocks (oracle : DomOracle) (succs : Nat → List Nat)
    (asiBlk : Nat) (users : List UserRef) (fuelO fuelI : Nat) : List Nat :=
  placePhiBlocks
    { oracle := oracle, succs := succs, asiBlk := asiBlk,
      dsiBlk := findDealloc users }
    (users.filterMap (fun u => if u.isStore then some u.parent else none))
    fuelO fuelI

/-! ## An executable IR model for the scans and the orchestrator

The per-block scans (`promoteAllocationInBlock`,
`removeSingleBlockAllocation`) and the orchestrator (`promoteSingleAllocation`
and `MemoryToRegisters::run`) are modelled over an instruction-list IR.  The
model has no projection instructions: slot uses are direct, which is the case
the orchestrator's dispatch handles (the treatment of projection chains is
modelled separately by the capture-analyzer tree model above).  Consequently
`isLoadFromStack I ASI` becomes `I`'s address operand being the slot's
address, and the dead-address-projection cleanups are vacuous.  Newly created
`copy_value` results are modelled as value terms (`MVal.copyOf`), and debug
variable info (and hence `promoteDebugValueAddr`'s duplicate-suppression
check) is abstracted away: a value-level debug annotation is always
produced. -/

/-- The element type of a stack slot, reduced to the single query the pass
makes of it: whether it is loadable (register-representable). -/
structure Ty where
  loadable : Bool
  deriving DecidableEq

/-- An SSA value: a numbered register, the address produced by an
`alloc_stack`, a block argument, `SILUndef`, the canonical empty-tuple value
created by `createValueForEmptyTuple`, or the result of a `copy_value`
inserted by `replaceLoad` for a `load [copy]`. -/
inductive MVal where
  | ssa (n : Nat)
  | allocAddr (a : Nat)
  | arg (blk idx : Nat)
  | undef
  | emptyTuple
  | copyOf (v : MVal)
  deriving DecidableEq

/-- Instruction payloads.  An `alloc` instruction's `MInst.id` is the slot
identifier; `load` records its result value id; `term` is a terminator with
its successor blocks and the branch arguments sent along each edge. -/
inductive MKind where
  | alloc (elemTy : Ty)
  | load (addr : MVal) (q : LoadQual) (res : Nat)
  | store (src : MVal) (dest : MVal) (q : StoreQual)
  | debugValueAddr (addr : MVal)
  | debugValue (v : MVal)
  | destroyAddr (addr : MVal)
  | destroyValue (v : MVal)
  | dealloc (addr : MVal)
  | term (targets : List (Nat × List MVal))
  | other (ops : List MVal)
  deriving DecidableEq

/-- An instruction: a stable identifier and a payload. -/
structure MInst where
  id : Nat
  k : MKind
  deriving DecidableEq

/-- A basic block: the number of block parameters and the instruction list. -/
structure MBlock where
  params : Nat
  insts : List MInst
  deriving DecidableEq

/-- A function: its blocks, indexed by position. -/
abbrev Fn := List MBlock

/-- Substitute value `v` for the SSA register `res` (the effect of
`replaceAllUsesWith` on one operand). -/
def MVal.substV (res : Nat) (v : MVal) : MVal → MVal
  | .ssa n => if n = res then v else .ssa n
  | .copyOf w => .copyOf (MVal.substV res v w)
  | x => x

/-- Whether this value is (or wraps) the address of slot `a`. -/
def MVal.mentionsAlloc (a : Nat) : MVal → Bool
  | .allocAddr b => decide (b = a)
  | .copyOf w => w.mentionsAlloc a
  | _ => false

/-- Whether this value is (or wraps) block argument `idx` of block `b`. -/
def MVal.mentionsArg (b idx : Nat) : MVal → Bool
  | .arg b2 i2 => decide (b2 = b) && decide (i2 = idx)
  | .copyOf w => w.mentionsArg b idx
  | _ => false

/-- The operand values of an instruction payload. -/
def MKind.ops : MKind → List MVal
  | .alloc _ => []
  | .load addr _ _ => [addr]
  | .store src dest _ => [src, dest]
  | .debugValueAddr addr => [addr]
  | .debugValue v => [v]
  | .destroyAddr addr => [addr]
  | .destroyValue v => [v]
  | .dealloc addr => [addr]
  | .term ts => (ts.map Prod.snd).flatten
  | .other ops => ops

/-- Map a function over every operand of an instruction payload. -/
def MKind.mapVals (f : MVal → MVal) : MKind → MKind
  | .alloc t => .alloc t
  | .load addr q res => .load (f addr) q res
  | .store src dest q => .store (f src) (f dest) q
  | .debugValueAddr addr => .debugValueAddr (f addr)
  | .debugValue v => .debugValue (f v)
  | .destroyAddr addr => .destroyAddr (f addr)
  | .destroyValue v => .destroyValue (f v)
  | .dealloc addr => .dealloc (f addr)
  | .term ts => .term (ts.map (fun p => (p.1, p.2.map f)))
  | .other ops => .other (ops.map f)

/-- Substitute value `v` for register `res` in one instruction. -/
def substInst (res : Nat) (v : MVal) (i : MInst) : MInst :=
  { i with k := i.k.mapVals (MVal.substV res v) }

/-- Whether the instruction uses the address of slot `a` (membership in the
slot's use list). -/
def MInst.usesAlloc (a : Nat) (i : MInst) : Bool :=
  i.k.ops.any (MVal.mentionsAlloc a)

/-- Whether the instruction is the `alloc_stack` of slot `a`. -/
def MInst.isAllocOf (a : Nat) (i : MInst) : Bool :=
  match i.k with
  | .alloc _ => decide (i.id = a)
  | _ => false

/-- All users of slot `a`'s address, with their parent block indices, in
program order. -/
def usersOf (F : Fn) (a : Nat) : List (Nat × MInst) :=
  (F.enum.map (fun p =>
    (p.2.insts.filter (MInst.usesAlloc a)).map (fun i => (p.1, i)))).flatten

/-- The parent block index of slot `a`'s `alloc_stack` instruction. -/
def findAllocBlk (F : Fn) (a : Nat) : Option Nat :=
  (F.enum.find? (fun p => p.2.insts.any (MInst.isAllocOf a))).map Prod.fst

/-- The slot's parent block (`ASI->getParent()`), defaulting to 0. -/
def allocParent (F : Fn) (a : Nat) : Nat :=
  (findAllocBlk F a).getD 0

/-- The slot's element type, defaulting to a loadable type. -/
def allocTy (F : Fn) (a : Nat) : Ty :=
  match (F.map (fun blk => blk.insts.find? (MInst.isAllocOf a))).reduceOption with
  | i :: _ =>
    match i.k with
    | .alloc t => t
    | _ => { loadable := true }
  | [] => { loadable := true }

/-- Whether slot `a`'s address has no remaining users (`ASI->use_empty()`). -/
def useEmptyF (F : Fn) (a : Nat) : Bool :=
  (usersOf F a).isEmpty

/-- An upper bound on the identifiers in use, for generating fresh ones. -/
def maxIdF (F : Fn) : Nat :=
  ((F.map (fun blk => (blk.insts.map (fun i => i.id)).foldr Nat.max 0)).foldr
    Nat.max 0)

/-- Whether the function contains any `alloc_stack` instruction. -/
def hasAllocF (F : Fn) : Bool :=
  F.any (fun blk => blk.insts.any (fun i =>
    match i.k with
    | .alloc _ => true
    | _ => false))

/-- The parameter count of block `b`. -/
def paramsOf (F : Fn) (b : Nat) : Nat :=
  ((F.get? b).map MBlock.params).getD 0

/-- Apply `f` to block `b` of the function. -/
def updateBlock (F : Fn) (b : Nat) (f : MBlock → MBlock) : Fn :=
  F.enum.map (fun p => if p.1 = b then f p.2 else p.2)

/-- The CFG successors of a block: the targets of its final terminator. -/
def blockSuccs (blk : MBlock) : List Nat :=
  match blk.insts.getLast? with
  | some i =>
    match i.k with
    | .term ts => ts.map Prod.fst
    | _ => []
  | none => []

/-- The CFG successors of block `b` in the function. -/
def succsOf (F : Fn) (b : Nat) : List Nat :=
  ((F.get? b).map blockSuccs).getD []

/-- The CFG predecessors of block `b` in the function. -/
def predsOf (F : Fn) (b : Nat) : List Nat :=
  (F.enum.filter (fun p => (blockSuccs p.2).contains b)).map Prod.fst

/-- Apply a list of register substitutions to the whole function. -/
def applySubsts (subs : List (Nat × MVal)) (F : Fn) : Fn :=
  subs.foldl
    (fun F p => F.map (fun blk =>
      { blk with insts := blk.insts.map (substInst p.1 p.2) })) F

/-- Delete the instruction with the given id everywhere. -/
def deleteInstById (F : Fn) (iid : Nat) : Fn :=
  F.map (fun blk => { blk with insts := blk.insts.filter (fun i => !decide (i.id = iid)) })

/-- Replace the instruction with the given id, in place, by a list of new
instructions. -/
def replaceInstById (F : Fn) (iid : Nat) (new : List MInst) : Fn :=
  F.map (fun blk =>
    { blk with insts := (blk.insts.map (fun i =>
        if i.id = iid then new else [i])).flatten })

/-! ## The single-block scan `promoteAllocationInBlock` (SILMem2Reg.cpp:455-577)

The scan is a fold over the block's instruction list.  Mutations behind the
iterator (deleting the previously retained store) are realised by a deleted-id
set applied to the emitted list at the end; mutations ahead of the iterator
(`replaceAllUsesWith` performed by `replaceLoad`) are realised by substituting
into the not-yet-scanned suffix, and are also recorded in `substs` so the
caller can apply them to the rest of the function. -/

/-- The value `replaceLoad` (SILMem2Reg.cpp:372-431) substitutes for the
load's result: for a `load [copy]` a `copy_value` of the resolved value is
created and users are pointed at it; otherwise the resolved value itself
(SILMem2Reg.cpp:405-414).  Projection re-application is vacuous for the
direct loads of this model. -/
def replaceLoadVal (q : LoadQual) (v : MVal) : MVal :=
  if q = .copy then .copyOf v else v

/-- Result of scanning one block for one slot. -/
structure PromoteScanOut where
  insts : List MInst
  deleted : List Nat
  substs : List (Nat × MVal)
  running : Option MVal
  lastStore : Option (Nat × MVal)
  nextId : Nat
  deriving DecidableEq

/-- Prepend a surviving instruction to the scan output. -/
def PromoteScanOut.keep (i : MInst) (out : PromoteScanOut) : PromoteScanOut :=
  { out with insts := i :: out.insts }

/-- Apply a list of pending register substitutions, oldest first, to one
instruction (the instructions ahead of the scan's iterator have already been
mutated by every `replaceAllUsesWith` performed so far; the scan model applies
those mutations when the iterator reaches the instruction). -/
def applySubstsInst (subs : List (Nat × MVal)) (i : MInst) : MInst :=
  subs.foldl (fun i p => substInst p.1 p.2 i) i

/-- The loop of `StackAllocationPromoter::promoteAllocationInBlock`
(SILMem2Reg.cpp:466-564).  State: the running value `rv` (`RunningVal`, null
as `none`), the retained store `ls` (`LastStore`, with its source operand),
the accumulated substitutions (applied to each instruction as the iterator
reaches it), the ids of deleted earlier stores, and the fresh-id counter.  In
this projection-free model `isLoadFromStack Inst ASI` is the load's address
operand being the slot's address, so the adoption condition
`Load->getOperand() == ASI && qualifier != Copy` reduces to its second
conjunct. -/
def promoteScanGo (a : Nat) :
    List MInst → Option MVal → Option (Nat × MVal) → List (Nat × MVal) →
    List Nat → Nat → PromoteScanOut
  | [], rv, ls, subs, del, nid =>
    { insts := [], deleted := del, substs := subs, running := rv,
      lastStore := ls, nextId := nid }
  | i0 :: rest, rv, ls, subs, del, nid =>
    let i := applySubstsInst subs i0
    match i.k with
    | .load addr q res =>
      if addr = .allocAddr a then
        match rv with
        | some v =>
          -- replaceLoad: rewrite the load's users (a copy of the value for
          -- load [copy]) and delete the load.
          promoteScanGo a rest rv ls (subs ++ [(res, replaceLoadVal q v)]) del nid
        | none =>
          if q = .copy then
            -- Do not use the result of load [copy] as RunningVal; leave it
            -- for fixBranchesAndUses.
            (promoteScanGo a rest rv ls subs del nid).keep i
          else
            -- The loaded value *is* the new running value.
            (promoteScanGo a rest (some (.ssa res)) ls subs del nid).keep i
      else (promoteScanGo a rest rv ls subs del nid).keep i
    | .store src dest q =>
      if dest = .allocAddr a then
        -- store [assign] is converted to store [init], destroying the
        -- outgoing running value (or a load [take] of the slot when the
        -- running value is unknown).
        let pre : List MInst :=
          if q = .assign then
            match rv with
            | some v => [{ id := nid, k := .destroyValue v }]
            | none => [{ id := nid, k := .load (.allocAddr a) .take (nid + 1) },
                       { id := nid + 2, k := .destroyValue (.ssa (nid + 1)) }]
          else []
        let nid2 :=
          if q = .assign then
            match rv with
            | some _ => nid + 1
            | none => nid + 3
          else nid
        let q2 := if q = .assign then .init else q
        -- If we met a store before this one, delete it.
        let del2 :=
          match ls with
          | some (lid, _) => del ++ [lid]
          | none => del
        let out := promoteScanGo a rest (some src) (some (i.id, src)) subs del2 nid2
        { out with insts := pre ++ { id := i.id, k := .store src (.allocAddr a) q2 } :: out.insts }
      else (promoteScanGo a rest rv ls subs del nid).keep i
    | .debugValueAddr addr =>
      if addr = .allocAddr a then
        match rv with
        | some v =>
          -- promoteDebugValueAddr: a value-level debug annotation replaces
          -- the address-level one (duplicate suppression abstracted away).
          ((promoteScanGo a rest rv ls subs del (nid + 1)).keep
            { id := nid, k := .debugValue v })
        | none => (promoteScanGo a rest rv ls subs del nid).keep i
      else (promoteScanGo a rest rv ls subs del nid).keep i
    | .destroyAddr addr =>
      if addr = .allocAddr a then
        match rv with
        | some v =>
          -- replaceDestroy: release the running value, erase the destroy_addr.
          ((promoteScanGo a rest rv ls subs del (nid + 1)).keep
            { id := nid, k := .destroyValue v })
        | none => (promoteScanGo a rest rv ls subs del nid).keep i
      else (promoteScanGo a rest rv ls subs del nid).keep i
    | .destroyValue v =>
      if some v = rv then
        -- Reset LastStore, so that dead values are not passed as phi
        -- arguments by fixBranchesAndUses (SILMem2Reg.cpp:550-557).
        (promoteScanGo a rest rv none subs del nid).keep i
      else (promoteScanGo a rest rv ls subs del nid).keep i
    | .dealloc addr =>
      if addr = .allocAddr a then
        -- Stop on deallocation; the dealloc_stack and everything after it
        -- stay in the block (SILMem2Reg.cpp:559-563).
        { insts := i :: rest.map (applySubstsInst subs), deleted := del,
          substs := subs, running := rv, lastStore := ls, nextId := nid }
      else (promoteScanGo a rest rv ls subs del nid).keep i
    | _ => (promoteScanGo a rest rv ls subs del nid).keep i

/-- Model of `StackAllocationPromoter::promoteAllocationInBlock`: run the scan
on the block's instructions with unknown running value and no retained store,
then drop the deleted earlier stores from the emitted list. -/
def promoteAllocationInBlockM (a : Nat) (insts : List MInst) (nid : Nat) :
    PromoteScanOut :=
  let out := promoteScanGo a insts none none [] [] nid
  { out with insts := out.insts.filter (fun i => !out.deleted.contains i.id) }

/-! ## The single-block elimination `removeSingleBlockAllocation`
(SILMem2Reg.cpp:591-678) -/

/-- Result of the single-block elimination scan. -/
structure RemoveScanOut where
  insts : List MInst
  substs : List (Nat × MVal)
  running : Option MVal
  nextId : Nat
  deriving DecidableEq

/-- Prepend a surviving instruction to the elimination-scan output. -/
def RemoveScanOut.keep (i : MInst) (out : RemoveScanOut) : RemoveScanOut :=
  { out with insts := i :: out.insts }

/-- The loop of `MemoryToRegisters::removeSingleBlockAllocation`
(SILMem2Reg.cpp:601-677).  All loads and stores on the slot are eliminated;
the deallocation is deleted and stops the scan, leaving any later
instructions in place.  A load with unknown running value takes the canonical
empty-tuple value (the source synthesizes it with `createValueForEmptyTuple`,
which is only reached for (tuples of) Void element types).  The trailing
dead-address-projection cleanup of the source is vacuous here: the model has
no projection instructions. -/
def removeScanGo (a : Nat) :
    List MInst → Option MVal → List (Nat × MVal) → Nat → RemoveScanOut
  | [], rv, subs, nid =>
    { insts := [], substs := subs, running := rv, nextId := nid }
  | i0 :: rest, rv, subs, nid =>
    let i := applySubstsInst subs i0
    match i.k with
    | .load addr q res =>
      if addr = .allocAddr a then
        let v :=
          match rv with
          | some v => v
          | none => MVal.emptyTuple
        removeScanGo a rest (some v) (subs ++ [(res, replaceLoadVal q v)]) nid
      else (removeScanGo a rest rv subs nid).keep i
    | .store src dest q =>
      if dest = .allocAddr a then
        -- store [assign]: destroy the previous running value (the source
        -- asserts it exists; `.undef` stands for the unreachable null).
        let pre : List MInst :=
          if q = .assign then [{ id := nid, k := .destroyValue (rv.getD .undef) }]
          else []
        let nid2 := if q = .assign then nid + 1 else nid
        let out := removeScanGo a rest (some src) subs nid2
        { out with insts := pre ++ out.insts }
      else (removeScanGo a rest rv subs nid).keep i
    | .debugValueAddr addr =>
      if addr = .allocAddr a then
        match rv with
        | some v =>
          ((removeScanGo a rest rv subs (nid + 1)).keep
            { id := nid, k := .debugValue v })
        | none =>
          -- Drop debug_value_addr of uninitialized void values.
          removeScanGo a rest rv subs nid
      else (removeScanGo a rest rv subs nid).keep i
    | .destroyAddr addr =>
      if addr = .allocAddr a then
        match rv with
        | some v =>
          ((removeScanGo a rest rv subs (nid + 1)).keep
            { id := nid, k := .destroyValue v })
        | none =>
          -- replaceDestroy with a null value: the element type is an empty
          -- tuple and its lowered destroy emits nothing.
          removeScanGo a rest rv subs nid
      else (removeScanGo a rest rv subs nid).keep i
    | .dealloc addr =>
      if addr = .allocAddr a then
        -- Remove the deallocation; no need to continue scanning after it.
        { insts := rest.map (applySubstsInst subs), substs := subs,
          running := rv, nextId := nid }
      else (removeScanGo a rest rv subs nid).keep i
    | _ => (removeScanGo a rest rv subs nid).keep i

/-- Model of `MemoryToRegisters::removeSingleBlockAllocation`: scan the
allocation's parent block and apply the resulting substitutions to the whole
function. -/
def removeSingleBlockAllocationM (F : Fn) (a : Nat) : Fn :=
  let b := allocParent F a
  match F.get? b with
  | none => F
  | some blk =>
    let out := removeScanGo a blk.insts none [] (maxIdF F + 1)
    updateBlock (applySubsts out.substs F) b (fun bb => { bb with insts := out.insts })

/-! ## Capture and write-only analysis over the IR model -/

/-- Whether one direct user of slot `a` is accepted by `isCaptured`
(SILMem2Reg.cpp:250-279), specialised to direct (projection-free) users: a
load from the slot's address (`isAddressForLoad` on a plain load, with a
fresh `hasGuaranteedOwnership`, is true), a store *into* the slot, a
deallocation, a `debug_value_addr`, or a `destroy_addr` of a loadable type.
Everything else captures. -/
def capSafeDirect (aty : Ty) (a : Nat) (i : MInst) : Bool :=
  match i.k with
  | .load addr _ _ => decide (addr = .allocAddr a)
  | .store _ dest _ => decide (dest = .allocAddr a)
  | .dealloc _ => true
  | .debugValueAddr _ => true
  | .destroyAddr _ => aty.loadable
  | _ => false

/-- The use-list loop of `isCaptured` over the IR model, threading the
single-block tracker. -/
def isCapturedGo (aty : Ty) (a : Nat) :
    List (Nat × MInst) → Option Nat → Bool × Option Nat
  | [], sb => (false, sb)
  | (bi, i) :: us, sb =>
    let sb := sbUpdate sb bi
    if capSafeDirect aty a i then isCapturedGo aty a us sb else (true, sb)

/-- Model of `isCaptured` over the IR model (direct users).  Returns
`(captured, inSingleBlock)`. -/
def isCapturedM (F : Fn) (a : Nat) : Bool × Bool :=
  match isCapturedGo (allocTy F a) a (usersOf F a) (some (allocParent F a)) with
  | (true, _) => (true, false)
  | (false, sb) => (false, sb.isSome)

/-- Model of `MemoryToRegisters::isWriteOnlyAllocation`
(SILMem2Reg.cpp:288-316): every user is a store whose source is not itself an
`alloc_stack` address, a deallocation, or a `debug_value_addr` (the
dead-address-projection case is vacuous in the projection-free model). -/
def isWriteOnlyM (F : Fn) (a : Nat) : Bool :=
  (usersOf F a).all (fun p =>
    match p.2.k with
    | .store src _ _ =>
      match src with
      | .allocAddr _ => false
      | _ => true
    | .dealloc _ => true
    | .debugValueAddr _ => true
    | _ => false)

/-- Model of `eraseUsesOfInstruction` applied to the slot's address: delete
every user instruction.  (The recursive erasure of the users' own uses is not
needed: the users erased on these paths — stores, deallocations and debug
annotations — produce no values.) -/
def eraseUsesOf (F : Fn) (a : Nat) : Fn :=
  F.map (fun blk =>
    { blk with insts := blk.insts.filter (fun i => !i.usesAlloc a) })

/-- Insert a `dealloc_stack` immediately after the `alloc_stack` of slot `a`
(`B.setInsertionPoint(std::next(alloc->getIterator()));
B.createDeallocStack(...)`, SILMem2Reg.cpp:1025-1026). -/
def insertAfterAlloc (a nid : Nat) : List MInst → List MInst
  | [] => []
  | i :: rest =>
    if i.isAllocOf a then i :: { id := nid, k := .dealloc (.allocAddr a) } :: rest
    else i :: insertAfterAlloc a nid rest

/-- Insert the recovery `dealloc_stack` in the allocation's block. -/
def insertDeallocAfterM (F : Fn) (a nid : Nat) : Fn :=
  updateBlock F (allocParent F a) (fun blk =>
    { blk with insts := insertAfterAlloc a nid blk.insts })

/-! ## The cross-block promoter `StackAllocationPromoter::run` over the IR
model -/

/-- Phase A, `pruneAllocStackUsage` (SILMem2Reg.cpp:838-855): scan every
block with a use of the slot, record each block's surviving store, and apply
the load-replacement substitutions function-wide.  Returns the pruned
function, the `LastStoreInBlock` map and the fresh-id counter. -/
def pruneGo (a : Nat) :
    List Nat → Fn → List (Nat × Option (Nat × MVal)) → Nat →
    Fn × List (Nat × Option (Nat × MVal)) × Nat
  | [], F, m, nid => (F, m, nid)
  | b :: bs, F, m, nid =>
    match F.get? b with
    | none => pruneGo a bs F m nid
    | some blk =>
      let out := promoteAllocationInBlockM a blk.insts nid
      pruneGo a bs
        (updateBlock (applySubsts out.substs F) b (fun bb => { bb with insts := out.insts }))
        (m ++ [(b, out.lastStore)]) out.nextId

/-- Deduplicate keeping first occurrences (the insertion-ordered
`BasicBlockSetVector` of blocks holding uses). -/
def dedupFirst : List Nat → List Nat
  | [] => []
  | x :: xs => x :: (dedupFirst xs).filter (fun y => !decide (y = x))

/-- Model of `pruneAllocStackUsage`. -/
def pruneAllocStackUsageM (F : Fn) (a : Nat) :
    Fn × List (Nat × Option (Nat × MVal)) × Nat :=
  pruneGo a (dedupFirst ((usersOf F a).map Prod.fst)) F [] (maxIdF F + 1)

/-- The `LastStoreInBlock` query made by `getLiveOutValue`: an entry must be
present and hold a non-null store. -/
def lastStoreSrcOf (m : List (Nat × Option (Nat × MVal))) (b : Nat) :
    Option MVal :=
  match List.lookup b m with
  | some (some (_, src)) => some src
  | _ => none

/-- The phi value of a block: its newest argument
(`BB->getArgument(BB->getNumArguments() - 1)`). -/
def phiArgVal (F : Fn) (b : Nat) : MVal :=
  .arg b (paramsOf F b - 1)

/-- The promoter's live-in resolution, instantiating the generic model at the
IR model. -/
def liveInP (oracle : DomOracle) (F : Fn) (m : List (Nat × Option (Nat × MVal)))
    (phis : List Nat) (fuel b : Nat) : MVal :=
  getLiveInValueM oracle.idom oracle.inTree (fun bb => (predsOf F bb).isEmpty)
    (lastStoreSrcOf m) (fun bb => phis.contains bb) (phiArgVal F) .undef fuel b

/-- The promoter's live-out resolution, instantiating the generic model at
the IR model. -/
def liveOutP (oracle : DomOracle) (F : Fn) (m : List (Nat × Option (Nat × MVal)))
    (phis : List Nat) (fuel b : Nat) : MVal :=
  getLiveOutValueM oracle.idom oracle.inTree (lastStoreSrcOf m)
    (fun bb => phis.contains bb) (phiArgVal F) .undef fuel b

/-- `addBlockArguments` (SILMem2Reg.cpp:680-685): append one new block
parameter to every phi block. -/
def addBlockArgumentsM (F : Fn) (phis : List Nat) : Fn :=
  phis.foldl (fun F P => updateBlock F P (fun blk => { blk with params := blk.params + 1 })) F

/-- The use-rewriting half of `fixBranchesAndUses` (SILMem2Reg.cpp:757-808),
over a snapshot of the slot's users: loads are replaced by the live-in value
(wrapped in a copy for `load [copy]`, as in `replaceLoad`),
`debug_value_addr` becomes a value-level annotation of the live-in value, and
`destroy_addr` becomes a release of the live-in value.  Stores and the
deallocation are left (they are erased later by `eraseUsesOfInstruction`). -/
def fixUsesGo (oracle : DomOracle) (a : Nat)
    (m : List (Nat × Option (Nat × MVal))) (phis : List Nat) (fuel : Nat) :
    List (Nat × MInst) → Fn → Nat → Fn × Nat
  | [], F, nid => (F, nid)
  | (bi, i) :: us, F, nid =>
    match i.k with
    | .load _ q res =>
      let d := liveInP oracle F m phis fuel bi
      let rep := replaceLoadVal q d
      fixUsesGo oracle a m phis fuel us
        (deleteInstById (applySubsts [(res, rep)] F) i.id) nid
    | .debugValueAddr _ =>
      let d := liveInP oracle F m phis fuel bi
      fixUsesGo oracle a m phis fuel us
        (replaceInstById F i.id [{ id := nid, k := .debugValue d }]) (nid + 1)
    | .destroyAddr _ =>
      let d := liveInP oracle F m phis fuel bi
      fixUsesGo oracle a m phis fuel us
        (replaceInstById F i.id [{ id := nid, k := .destroyValue d }]) (nid + 1)
    | _ => fixUsesGo oracle a m phis fuel us F nid

/-- Apply `f` to the final (terminator) instruction of a list. -/
def mapLastInst (f : MInst → MInst) : List MInst → List MInst
  | [] => []
  | [i] => [f i]
  | i :: rest => i :: mapLastInst f rest

/-- `addArgumentToBranch`: append the resolved definition to the branch
arguments of every edge of `pred`'s terminator that targets `dest`. -/
def addBranchArg (F : Fn) (pred dest : Nat) (v : MVal) : Fn :=
  updateBlock F pred (fun blk =>
    { blk with insts := mapLastInst (fun i =>
        match i.k with
        | .term ts =>
          { i with k := .term (ts.map (fun p =>
              if p.1 = dest then (p.1, p.2 ++ [v]) else p)) }
        | _ => i) blk.insts })

/-- The branch-wiring half of `fixBranchesAndUses` (SILMem2Reg.cpp:810-824):
for every phi block and predecessor, resolve the live-out value of the
predecessor and pass it along the edge (`fixPhiPredBlock`). -/
def wireGo (oracle : DomOracle) (m : List (Nat × Option (Nat × MVal)))
    (phis : List Nat) (fuel : Nat) :
    List (Nat × Nat) → Fn → Fn
  | [], F => F
  | (dest, pred) :: ps, F =>
    wireGo oracle m phis fuel ps
      (addBranchArg F pred dest (liveOutP oracle F m phis fuel pred))

/-- `erasePhiArgument`: drop the newest parameter of block `P` and the
corresponding (final) incoming value on every edge targeting `P`. -/
def erasePhiArg (F : Fn) (P idx : Nat) : Fn :=
  (updateBlock F P (fun blk => { blk with params := blk.params - 1 })).map
    (fun blk =>
      { blk with insts := mapLastInst (fun i =>
          match i.k with
          | .term ts =>
            { i with k := .term (ts.map (fun p =>
                if p.1 = P then (p.1, p.2.eraseIdx idx) else p)) }
          | _ => i) blk.insts })

/-- The dead-phi cleanup of `fixBranchesAndUses` (SILMem2Reg.cpp:829-835):
erase every newly added block argument with no remaining uses. -/
def cleanupGo : List Nat → Fn → Fn
  | [], F => F
  | P :: ps, F =>
    let idx := paramsOf F P - 1
    let used := F.any (fun blk => blk.insts.any (fun i =>
      i.k.ops.any (MVal.mentionsArg P idx)))
    cleanupGo ps (if used then F else erasePhiArg F P idx)

/-- The `UserRef` view of one IR user (for the deallocation scan and the
phi-placement seeding). -/
def userRefOf (p : Nat × MInst) : UserRef :=
  { isStore :=
      match p.2.k with
      | .store _ _ _ => true
      | _ => false,
    isDealloc :=
      match p.2.k with
      | .dealloc _ => true
      | _ => false,
    parent := p.1 }

/-- Model of `StackAllocationPromoter::run` (SILMem2Reg.cpp:979-987): prune
the in-block usage, place phi blocks, add the block arguments, and fix
branches and uses.  Placement and idom-walk fuels are sized from the function
so they are never exhausted on a well-formed dominator tree. -/
def stackPromoterRunM (oracle : DomOracle) (F : Fn) (a : Nat) : Fn :=
  let pr := pruneAllocStackUsageM F a
  let F1 := pr.1
  let m := pr.2.1
  let nid := pr.2.2
  let users := (usersOf F1 a).map userRefOf
  let n := F1.length
  let phis := promoteToPhiBlocks oracle (succsOf F1) (allocParent F1 a) users
    ((n + 2) * (n + 2) + users.length) ((n + 2) * (n + 2))
  let F2 := addBlockArgumentsM F1 phis
  let fx := fixUsesGo oracle a m phis (n + 1) (usersOf F2 a) F2 nid
  let F4 := wireGo oracle m phis (n + 1)
    ((phis.map (fun P => (predsOf fx.1 P).map (fun pr => (P, pr)))).flatten) fx.1
  cleanupGo phis F4

/-! ## The orchestrator (`promoteSingleAllocation`, `MemoryToRegisters::run`)
-/

/-- Model of `MemoryToRegisters::promoteSingleAllocation`
(SILMem2Reg.cpp:993-1041).  Returns the mutated function and whether the slot
was handled (the source's return value). -/
def promoteSingleAllocationM (oracle : DomOracle) (F : Fn) (a : Nat) :
    Fn × Bool :=
  let cap := isCapturedM F a
  -- Don't handle captured AllocStacks.
  if cap.1 then (F, false)
  -- Remove write-only AllocStacks.
  else if isWriteOnlyM F a then (eraseUsesOf F a, true)
  -- For AllocStacks used only within a single basic block, the linear sweep.
  else if cap.2 then
    let F1 := removeSingleBlockAllocationM F a
    if !useEmptyF F1 a then
      -- Corner case: the ASI still has uses (an address escaped through an
      -- unrecognized pattern); re-insert a dealloc_stack, don't crash.
      (insertDeallocAfterM F1 a (maxIdF F1 + 1), true)
    else (F1, true)
  -- Otherwise promote through phi placement, then erase all remaining uses.
  else (eraseUsesOf (stackPromoterRunM oracle F a) a, true)

/-- The instruction-walking loop of `MemoryToRegisters::run`
(SILMem2Reg.cpp:1054-1073), by block index and instruction position; positions
advance past the current instruction exactly as the source's iterator does
(deletions behind the iterator do not shift the continuation point because
the erased `alloc_stack` itself is the instruction at the current
position). -/
def runGo (oracle : DomOracle) :
    Nat → Fn → Nat → Nat → Bool → Fn × Bool
  | 0, F, _, _, ch => (F, ch)
  | fuel + 1, F, bi, pos, ch =>
    match F.get? bi with
    | none => (F, ch)
    | some blk =>
      match blk.insts.get? pos with
      | none => runGo oracle fuel F (bi + 1) 0 ch
      | some i =>
        match i.k with
        | .alloc _ =>
          let pr := promoteSingleAllocationM oracle F i.id
          if pr.2 then
            let erased := useEmptyF pr.1 i.id
            runGo oracle fuel (if erased then deleteInstById pr.1 i.id else pr.1)
              bi (if erased then pos else pos + 1) true
          else runGo oracle fuel pr.1 bi (pos + 1) ch
        | _ => runGo oracle fuel F bi (pos + 1) ch

/-- Fuel for the run loop: enough steps to visit every position (including
the one dealloc_stack possibly inserted per slot) and move past every
block. -/
def runFuel (F : Fn) : Nat :=
  (F.map (fun blk => blk.insts.length + 2)).sum * 2 + F.length + 2

/-- Model of `MemoryToRegisters::run` (SILMem2Reg.cpp:1044-1075): walk every
block looking for `alloc_stack` instructions, promote each, erase it when its
uses are gone, and report whether anything changed. -/
def memToRegRunM (oracle : DomOracle) (F : Fn) : Fn × Bool :=
  runGo oracle (runFuel F) F 0 0 false

/-! ## Auxiliary predicates used by theorem statements -/

/-- The children of a projection node all lie (recursively) in block `b`;
for childless users this is vacuous.  `isAddressForLoad` checks exactly these
blocks (the node's own block is checked by its caller). -/
def subUsersIn (b : Nat) : AddrUser → Bool
  | .proj _ _ users => allNodesInList b users
  | _ => true

/-- Whether `i` is a load directly from slot `a`'s address. -/
def isLoadFrom (a : Nat) (i : MInst) : Bool :=
  match i.k with
  | .load addr _ _ => decide (addr = .allocAddr a)
  | _ => false

/-- Whether the `alloc_stack` of slot `a` occurs in the function. -/
def allocPresent (F : Fn) (a : Nat) : Bool :=
  F.any (fun blk => blk.insts.any (MInst.isAllocOf a))

/-- Whether the list contains slot `a`'s `alloc_stack` immediately followed
by a `dealloc_stack` of that slot. -/
def followsAllocDealloc (a : Nat) : List MInst → Bool
  | i :: j :: rest =>
    (i.isAllocOf a && decide (j.k = .dealloc (.allocAddr a)))
      || followsAllocDealloc a (j :: rest)
  | _ => false

/-- Whether some block of the function holds slot `a`'s `alloc_stack`
immediately followed by a `dealloc_stack` of that slot. -/
def deallocAfterAllocF (F : Fn) (a : Nat) : Bool :=
  F.any (fun blk => followsAllocDealloc a blk.insts)

/-- The invariant of accepted phi blocks: dominated by the slot's defining
block, and not properly dominated by the unique deallocation's block when
that deallocation is known. -/
def goodPhi (e : PhiEnv) (b : Nat) : Prop :=
  e.oracle.dom e.asiBlk b = true
    ∧ ∀ d, e.dsiBlk = some d → e.oracle.pdom d b = false

/-! ## Concrete inputs used by counterexamples and witnesses -/

/-- A dominance oracle for a single-block function (block 0 is the entry and
the only block). -/
def oracle1 : DomOracle :=
  { idom := fun _ => none, children := fun _ => [],
    inTree := fun b => decide (b = 0), level := fun _ => 0,
    dom := fun x y => decide (x = 0) && decide (y = 0),
    pdom := fun _ _ => false }

/-- A single-block function with a slot, a store, a load, and two
deallocations of the slot: after the first `dealloc_stack` stops the
single-block sweep, the second one is still a user of the slot (the tolerated
ill-formed corner case of `promoteSingleAllocation`). -/
def exF0 : Fn :=
  [{ params := 0,
     insts := [{ id := 0, k := .alloc { loadable := true } },
               { id := 1, k := .store (.ssa 100) (.allocAddr 0) .init },
               { id := 2, k := .load (.allocAddr 0) .take 200 },
               { id := 3, k := .dealloc (.allocAddr 0) },
               { id := 4, k := .dealloc (.allocAddr 0) }] }]

/-- A well-formed single-block function: slot, store, load, one
deallocation. -/
def exF1 : Fn :=
  [{ params := 0,
     insts := [{ id := 0, k := .alloc { loadable := true } },
               { id := 1, k := .store (.ssa 100) (.allocAddr 0) .init },
               { id := 2, k := .load (.allocAddr 0) .take 200 },
               { id := 3, k := .dealloc (.allocAddr 0) }] }]

/-- A single-block function whose slot's address escapes into an
unrecognized instruction (captured). -/
def exFCap : Fn :=
  [{ params := 0,
     insts := [{ id := 0, k := .alloc { loadable := true } },
               { id := 1, k := .other [.allocAddr 0] },
               { id := 2, k := .dealloc (.allocAddr 0) }] }]

/-- A block for the destroy-value scan: a store of `%7`, a `destroy_value`
of `%7` (the running value), then a load. -/
def exB3 : List MInst :=
  [{ id := 1, k := .store (.ssa 7) (.allocAddr 0) .init },
   { id := 2, k := .destroyValue (.ssa 7) },
   { id := 3, k := .load (.allocAddr 0) .unqualified 9 }]

/-- A block holding two `load [copy]` of the slot with no preceding store
(the slot is initialized in a predecessor block). -/
def exB6 : List MInst :=
  [{ id := 1, k := .load (.allocAddr 0) .copy 11 },
   { id := 2, k := .load (.allocAddr 0) .copy 12 }]

/-- A block with a store, the slot's deallocation, and a further store after
it. -/
def exB7 : List MInst :=
  [{ id := 1, k := .store (.ssa 7) (.allocAddr 0) .init },
   { id := 2, k := .dealloc (.allocAddr 0) },
   { id := 3, k := .store (.ssa 8) (.allocAddr 0) .init }]

/-- A dominance oracle for a diamond CFG `0 → {1,2} → 3` (all blocks
immediately dominated by 0, levels 0/1/1/1). -/
def oracleD : DomOracle :=
  { idom := fun b => if b = 0 then none else if b ≤ 3 then some 0 else none,
    children := fun b => if b = 0 then [1, 2, 3] else [],
    inTree := fun b => decide (b ≤ 3),
    level := fun b => if b = 0 then 0 else 1,
    dom := fun x y => decide (x = 0 ∧ y ≤ 3) || decide (x = y ∧ y ≤ 3),
    pdom := fun x y => decide (x = 0 ∧ 1 ≤ y ∧ y ≤ 3) }

/-- The successor map of the diamond CFG. -/
def exSuccsD : Nat → List Nat := fun b =>
  if b = 0 then [1, 2] else if b = 1 then [3] else if b = 2 then [3] else []

/-- The slot's users for the diamond: stores in blocks 1 and 2, the single
deallocation in block 3. -/
def exUsersD : List UserRef :=
  [{ isStore := true, isDealloc := false, parent := 1 },
   { isStore := true, isDealloc := false, parent := 2 },
   { isStore := false, isDealloc := true, parent := 3 }]

/-- A concrete immediate-dominator map: blocks 1-3 are dominated by root
0. -/
def exIdom : Nat → Option Nat := fun b =>
  if b = 0 then none else if b ≤ 3 then some 0 else none

/-- Concrete dominator-tree membership: blocks 0-3. -/
def exInTree : Nat → Bool := fun b => decide (b ≤ 3)

/-- Concrete predecessor emptiness: only the entry block 0. -/
def exPredEmpty : Nat → Bool := fun b => decide (b = 0)

/-- Concrete retained-store map: block 1 retained a store of value 77. -/
def exLastStore : Nat → Option Nat := fun b => if b = 1 then some 77 else none

/-- Concrete phi-block membership: block 3 is a phi block. -/
def exPhiMem : Nat → Bool := fun b => decide (b = 3)

/-- Concrete phi-argument values: block `b`'s new argument is value
`1000 + b`. -/
def exPhiArg : Nat → Nat := fun b => 1000 + b

/-! # Theorems

Helper lemmas first, then one theorem (with counterexample and witness where
applicable) per claim. -/

@[simp]
theorem keep_deleted (out : PromoteScanOut) (i : MInst) :
    (out.keep i).deleted = out.deleted := rfl

@[simp]
theorem keep_running (out : PromoteScanOut) (i : MInst) :
    (out.keep i).running = out.running := rfl

@[simp]
theorem keep_lastStore (out : PromoteScanOut) (i : MInst) :
    (out.keep i).lastStore = out.lastStore := rfl

@[simp]
theorem applySubstsInst_nil (i : MInst) : applySubstsInst [] i = i := rfl

theorem applySubstsInst_of_fixed (subs : List (Nat × MVal)) (i : MInst)
    (h : ∀ p : Nat × MVal, substInst p.1 p.2 i = i) :
    applySubstsInst subs i = i := by
  induction subs with
  | nil => rfl
  | cons p ps ih =>
    show applySubstsInst ps (substInst p.1 p.2 i) = i
    rw [h p]; exact ih

theorem applySubstsInst_dealloc (subs : List (Nat × MVal)) (iid a : Nat) :
    applySubstsInst subs { id := iid, k := .dealloc (.allocAddr a) }
      = { id := iid, k := .dealloc (.allocAddr a) } :=
  applySubstsInst_of_fixed subs _ (fun _ => rfl)

theorem applySubstsInst_load_alloc (subs : List (Nat × MVal))
    (iid a res : Nat) (q : LoadQual) :
    applySubstsInst subs { id := iid, k := .load (.allocAddr a) q res }
      = { id := iid, k := .load (.allocAddr a) q res } :=
  applySubstsInst_of_fixed subs _ (fun _ => rfl)

theorem promoteScanGo_deleted_mono (a : Nat) (l : List MInst)
    (rv : Option MVal) (ls : Option (Nat × MVal)) (subs : List (Nat × MVal))
    (del : List Nat) (nid x : Nat) (hx : x ∈ del) :
    x ∈ (promoteScanGo a l rv ls subs del nid).deleted := by
  induction l generalizing rv ls subs del nid with
  | nil => simpa [promoteScanGo]
  | cons i0 rest ih =>
    simp only [promoteScanGo]
    (repeat' split) <;>
      first
        | exact hx
        | exact ih _ _ _ _ _ hx
        | exact ih _ _ _ _ _ (List.mem_append_left _ hx)

/-- C7, counterexample.  In the pruning scan `promoteAllocationInBlock`, the
slot's deallocation is *not* deleted: on the block
`[store %7; dealloc_stack; store %8]` the dealloc (id 2) survives the scan
(and the store after it is never processed: the retained store is still the
first one). -/
theorem c7_counterexample :
    ((promoteAllocationInBlockM 0 exB7 50).insts.any (fun i => decide (i.id = 2))) = true
      ∧ (promoteAllocationInBlockM 0 exB7 50).lastStore = some (1, .ssa 7) := by
  constructor <;> decide

/-- C7, as amended.  When the scan of a block meets the slot's deallocation
it stops: in `promoteAllocationInBlock` the dealloc and everything after it
are left in the block (with pending substitutions applied) and the scan state
is final, the dealloc *not* being deleted there; in
`removeSingleBlockAllocation` the dealloc is deleted and the instructions
after it are likewise left unprocessed. -/
theorem c7_amended (a iid nid : Nat) (rest : List MInst) (rv : Option MVal)
    (ls : Option (Nat × MVal)) (subs : List (Nat × MVal)) (del : List Nat) :
    promoteScanGo a ({ id := iid, k := .dealloc (.allocAddr a) } :: rest) rv ls subs del nid
        = { insts := { id := iid, k := .dealloc (.allocAddr a) } :: rest.map (applySubstsInst subs),
            deleted := del, substs := subs, running := rv, lastStore := ls,
            nextId := nid }
      ∧ removeScanGo a ({ id := iid, k := .dealloc (.allocAddr a) } :: rest) rv subs nid
        = { insts := rest.map (applySubstsInst subs), substs := subs,
            running := rv, nextId := nid } := by
  constructor
  · simp [promoteScanGo, applySubstsInst_dealloc]
  · simp [removeScanGo, applySubstsInst_dealloc]

/-- C3, counterexample.  On the block
`[store %7 to slot; destroy_value %7; load slot]` the scan does *not* reset
the running value at the destroy: it stays `%7`, and the later load is
resolved to the destroyed value `%7`; what is reset is the retained store
(`LastStore`), which becomes null. -/
theorem c3_counterexample :
    (promoteAllocationInBlockM 0 exB3 50).running = some (.ssa 7)
      ∧ (promoteAllocationInBlockM 0 exB3 50).substs = [(9, .ssa 7)]
      ∧ (promoteAllocationInBlockM 0 exB3 50).lastStore = none := by
  refine ⟨?_, ?_, ?_⟩ <;> decide

/-- C3, as amended.  When the single-block scan meets a `destroy_value`
whose operand is identical to the current running value, it resets the
*retained store* (`LastStore`) to null — so the destroyed value is not later
passed as a phi argument — while the running value itself is left unchanged
and later uses in the block still resolve to it; the `destroy_value` stays in
the block and the scan continues. -/
theorem c3_amended (a iid nid : Nat) (v : MVal) (i0 : MInst) (rest : List MInst)
    (rv : Option MVal) (ls : Option (Nat × MVal)) (subs : List (Nat × MVal))
    (del : List Nat)
    (hk : applySubstsInst subs i0 = { id := iid, k := .destroyValue v })
    (hrv : rv = some v) :
    promoteScanGo a (i0 :: rest) rv ls subs del nid
      = (promoteScanGo a rest rv none subs del nid).keep
          { id := iid, k := .destroyValue v } := by
  subst hrv
  simp [promoteScanGo, hk]

/-- C3, witness for the amended theorem. -/
theorem c3_witness :
    applySubstsInst [] ({ id := 2, k := .destroyValue (.ssa 7) } : MInst)
        = { id := 2, k := .destroyValue (.ssa 7) }
      ∧ (some (MVal.ssa 7) : Option MVal) = some (.ssa 7)
      ∧ promoteScanGo 0 [{ id := 2, k := .destroyValue (.ssa 7) },
            { id := 3, k := .load (.allocAddr 0) .unqualified 9 }]
            (some (.ssa 7)) (some (1, .ssa 7)) [] [] 50
        = (promoteScanGo 0 [{ id := 3, k := .load (.allocAddr 0) .unqualified 9 }]
            (some (.ssa 7)) none [] [] 50).keep
            { id := 2, k := .destroyValue (.ssa 7) } :=
  ⟨rfl, rfl,
    c3_amended 0 2 50 (.ssa 7) _ _ _ _ [] [] rfl rfl⟩

/-- C10.  In the pruning scan, a load from the slot met with unknown running
value is adopted as the new running value exactly when its ownership
qualifier is not `Copy`: a non-copy load becomes the running value (and stays
in the block as the first load), a `load [copy]` is never adopted and is left
in place for the use-fixing phase; and `replaceLoad` substitutes a
`copy_value` of the resolved value — not the value itself — for the users of
a `load [copy]`. -/
theorem c10_theorem (a iid res nid : Nat) (q : LoadQual) (rest : List MInst)
    (ls : Option (Nat × MVal)) (subs : List (Nat × MVal)) (del : List Nat) :
    (q ≠ .copy →
      promoteScanGo a ({ id := iid, k := .load (.allocAddr a) q res } :: rest)
          none ls subs del nid
        = (promoteScanGo a rest (some (.ssa res)) ls subs del nid).keep
            { id := iid, k := .load (.allocAddr a) q res })
      ∧ (promoteScanGo a ({ id := iid, k := .load (.allocAddr a) .copy res } :: rest)
            none ls subs del nid
          = (promoteScanGo a rest none ls subs del nid).keep
              { id := iid, k := .load (.allocAddr a) .copy res })
      ∧ (∀ v : MVal, replaceLoadVal .copy v = .copyOf v)
      ∧ (∀ v : MVal, q ≠ .copy → replaceLoadVal q v = v) := by
  refine ⟨?_, ?_, ?_, ?_⟩
  · intro hq
    simp [promoteScanGo, applySubstsInst_load_alloc, hq]
  · simp [promoteScanGo, applySubstsInst_load_alloc]
  · intro v; rfl
  · intro v hq; simp [replaceLoadVal, hq]

/-- C10, witness: the take-load adoption, the copy-load non-adoption, and
the copy-value substitution, at concrete inputs. -/
theorem c10_witness :
    (promoteScanGo 0 [{ id := 5, k := .load (.allocAddr 0) .take 7 }] none none [] [] 9
        = (promoteScanGo 0 [] (some (.ssa 7)) none [] [] 9).keep
            { id := 5, k := .load (.allocAddr 0) .take 7 })
      ∧ (promoteScanGo 0 [{ id := 5, k := .load (.allocAddr 0) .copy 7 }] none none [] [] 9
          = (promoteScanGo 0 [] none none [] [] 9).keep
              { id := 5, k := .load (.allocAddr 0) .copy 7 })
      ∧ replaceLoadVal .copy (.ssa 1) = .copyOf (.ssa 1)
      ∧ replaceLoadVal .take (.ssa 1) = .ssa 1 :=
  ⟨(c10_theorem 0 5 7 9 .take [] none [] []).1 (by decide),
    (c10_theorem 0 5 7 9 .take [] none [] []).2.1,
    (c10_theorem 0 5 7 9 .take [] none [] []).2.2.1 (.ssa 1),
    (c10_theorem 0 5 7 9 .take [] none [] []).2.2.2 (.ssa 1) (by decide)⟩

/-- C6, counterexample.  The pruning scan does not leave at most one live
load on the slot's address: on a block holding two `load [copy]` of the slot
(with the running value unknown, the slot being initialized in a
predecessor), neither load is adopted or removed, so two live loads remain
after pruning. -/
theorem c6_counterexample :
    ((promoteAllocationInBlockM 0 exB6 50).insts.countP (isLoadFrom 0)) = 2 := by
  decide

/-- C6, as amended.  When the scan meets a store to the slot while an
earlier retained store is recorded, that earlier store is deleted, so each
block records at most one retained store (the last one); but the ≤1-live-load
bound of the original claim does not hold (multiple `load [copy]` can
survive), and after a `destroy_value` clears the recorded store an earlier
store can also survive alongside a later one. -/
theorem c6_amended (a iid lid nid : Nat) (src : MVal) (q : StoreQual)
    (i0 : MInst) (rest : List MInst) (rv : Option MVal) (lv : MVal)
    (subs : List (Nat × MVal)) (del : List Nat)
    (hk : applySubstsInst subs i0 = { id := iid, k := .store src (.allocAddr a) q }) :
    lid ∈ (promoteScanGo a (i0 :: rest) rv (some (lid, lv)) subs del nid).deleted := by
  simp only [promoteScanGo, hk]
  exact promoteScanGo_deleted_mono _ _ _ _ _ _ _ _
    (List.mem_append_right _ (List.mem_singleton.mpr rfl))

/-- C6, witness for the amended theorem. -/
theorem c6_witness :
    applySubstsInst [] ({ id := 4, k := .store (.ssa 8) (.allocAddr 0) .init } : MInst)
        = { id := 4, k := .store (.ssa 8) (.allocAddr 0) .init }
      ∧ 1 ∈ (promoteScanGo 0 [{ id := 4, k := .store (.ssa 8) (.allocAddr 0) .init }]
          (some (.ssa 7)) (some (1, .ssa 7)) [] [] 50).deleted :=
  ⟨rfl, c6_amended 0 4 1 50 (.ssa 8) .init _ _ _ (.ssa 7) [] [] rfl⟩

/-! ## C1: the phi-placement invariant -/

theorem processSucc_sub (e : PhiEnv) (rl n s : Nat) (st : PhiState) (b : Nat)
    (hb : b ∈ (processSucc e rl n st s).phiBlocks) :
    b ∈ st.phiBlocks ∨ goodPhi e b := by
  unfold processSucc at hb
  repeat' split at hb
  all_goals try exact Or.inl hb
  dsimp only at hb
  split at hb
  · exact Or.inl hb
  rename_i hD hE hF
  rcases List.mem_append.mp hb with hb2 | hb2
  · exact Or.inl hb2
  · rcases List.mem_singleton.mp hb2
    refine Or.inr ⟨of_not_not hD, ?_⟩
    intro d hd
    rw [hd] at hE
    simpa using hE

theorem processSuccList_sub (e : PhiEnv) (rl n : Nat) (ss : List Nat)
    (st : PhiState) (b : Nat)
    (hb : b ∈ (processSuccList e rl n ss st).phiBlocks) :
    b ∈ st.phiBlocks ∨ goodPhi e b := by
  induction ss generalizing st with
  | nil => exact Or.inl hb
  | cons s ss ih =>
    rcases ih (processSucc e rl n st s) hb with hb2 | hb2
    · exact processSucc_sub e rl n s st b hb2
    · exact Or.inr hb2

theorem innerDFS_sub (e : PhiEnv) (rl : Nat) (fuel : Nat) (wl : List Nat)
    (st : PhiState) (b : Nat)
    (hb : b ∈ (innerDFS e rl fuel wl st).phiBlocks) :
    b ∈ st.phiBlocks ∨ goodPhi e b := by
  induction fuel generalizing wl st with
  | zero => simp only [innerDFS] at hb; exact Or.inl hb
  | succ f ih =>
    cases wl with
    | nil => simp only [innerDFS] at hb; exact Or.inl hb
    | cons node rest =>
      simp only [innerDFS] at hb
      rcases ih _ _ hb with hb2 | hb2
      · exact processSuccList_sub e rl node (e.succs node) st b hb2
      · exact Or.inr hb2

theorem phiOuter_sub (e : PhiEnv) (fo fi : Nat) (st : PhiState) (b : Nat)
    (hb : b ∈ (phiOuter e fo fi st).phiBlocks) :
    b ∈ st.phiBlocks ∨ goodPhi e b := by
  induction fo generalizing st with
  | zero => exact Or.inl hb
  | succ f ih =>
    simp only [phiOuter] at hb
    rcases hpq : popMax st.pq with _ | ⟨⟨node, lvl⟩, pq⟩
    · rw [hpq] at hb; exact Or.inl hb
    · rw [hpq] at hb
      rcases ih _ hb with hb2 | hb2
      · rcases innerDFS_sub e lvl fi [node] _ b hb2 with hb3 | hb3
        · exact Or.inl hb3
        · exact Or.inr hb3
      · exact Or.inr hb2

theorem placePhiBlocks_good (e : PhiEnv) (seeds : List Nat) (fo fi : Nat)
    (b : Nat) (hb : b ∈ placePhiBlocks e seeds fo fi) : goodPhi e b := by
  unfold placePhiBlocks at hb
  rcases phiOuter_sub e fo fi _ b hb with hb2 | hb2
  · simp at hb2
  · exact hb2

/-- C1.  Every block accepted into the phi-block set during placement is
dominated by the slot's defining block and, when the constructor scan
identified a unique deallocation, is not properly dominated by that
deallocation's block (with more than one deallocation use, `findDealloc` is
`none` and the second condition is vacuous). -/
theorem c1_theorem (oracle : DomOracle) (succs : Nat → List Nat)
    (asiBlk : Nat) (users : List UserRef) (fo fi b : Nat)
    (hb : b ∈ promoteToPhiBlocks oracle succs asiBlk users fo fi) :
    oracle.dom asiBlk b = true
      ∧ ∀ d, findDealloc users = some d → oracle.pdom d b = false := by
  exact placePhiBlocks_good _ _ fo fi b hb

/-- C1, witness: in the diamond CFG the merge block 3 is accepted, and it is
dominated by the slot's block 0 and not properly dominated by the unique
deallocation's block 3. -/
theorem c1_witness :
    3 ∈ promoteToPhiBlocks oracleD exSuccsD 0 exUsersD 100 100
      ∧ oracleD.dom 0 3 = true
      ∧ findDealloc exUsersD = some 3
      ∧ oracleD.pdom 3 3 = false := by
  have hmem : 3 ∈ promoteToPhiBlocks oracleD exSuccsD 0 exUsersD 100 100 := by
    decide
  have h := c1_theorem oracleD exSuccsD 0 exUsersD 100 100 3 hmem
  exact ⟨hmem, h.1, by decide, h.2 3 (by decide)⟩

/-! ## C2: the live-in / live-out characterization -/

theorem liveOutLoop_none {α : Type} (idom : Nat → Option Nat)
    (lastStore : Nat → Option α) (phiMem : Nat → Bool) (phiArg : Nat → α)
    (undefV : α) (fuel : Nat) :
    liveOutLoop idom lastStore phiMem phiArg undefV fuel none = undefV := by
  cases fuel <;> rfl

theorem liveOutLoop_eq_spec {α : Type} (idom : Nat → Option Nat)
    (lastStore : Nat → Option α) (phiMem : Nat → Bool) (phiArg : Nat → α)
    (undefV : α) (fuel b : Nat) :
    liveOutLoop idom lastStore phiMem phiArg undefV fuel (some b)
      = specLiveOut idom lastStore phiMem phiArg undefV fuel b := by
  induction fuel generalizing b with
  | zero => rfl
  | succ f ih =>
    simp only [liveOutLoop, specLiveOut]
    cases hls : lastStore b with
    | some v => rfl
    | none =>
      by_cases hphi : phiMem b = true
      · simp [hphi]
      · simp only [hphi, if_false, Bool.false_eq_true]
        cases hid : idom b with
        | some d => simpa using ih d
        | none => simp [liveOutLoop_none]

/-- C2.  Given that immediate dominators lie in the dominator tree, the
source's live-in / live-out walks coincide with the spec's recursive
characterization: live-in(B) is B's own parameter if B is a phi block, else
the undef placeholder if B has no predecessors or is outside the dominator
tree, else live-out of B's immediate dominator; and live-out(B) is B's
retained store's operand if recorded, else B's parameter if B is a phi block,
else live-out of B's immediate dominator, the walk past the root yielding the
undef placeholder. -/
theorem c2_theorem {α : Type} (idom : Nat → Option Nat) (inTree : Nat → Bool)
    (predEmpty : Nat → Bool) (lastStore : Nat → Option α)
    (phiMem : Nat → Bool) (phiArg : Nat → α) (undefV : α)
    (hIT : ∀ b d, idom b = some d → inTree d = true) (fuel b : Nat) :
    getLiveInValueM idom inTree predEmpty lastStore phiMem phiArg undefV fuel b
        = specLiveIn idom inTree predEmpty lastStore phiMem phiArg undefV fuel b
      ∧ (inTree b = true →
          getLiveOutValueM idom inTree lastStore phiMem phiArg undefV fuel b
            = specLiveOut idom lastStore phiMem phiArg undefV fuel b) := by
  constructor
  · simp only [getLiveInValueM, specLiveIn]
    by_cases hphi : phiMem b = true
    · simp [hphi]
    · simp only [hphi, if_false, Bool.false_eq_true]
      split
      · rfl
      · cases hid : idom b with
        | some d =>
          have hd : inTree d = true := hIT b d hid
          simp [getLiveOutValueM, hd, liveOutLoop_eq_spec]
        | none => rfl
  · intro hin
    simp [getLiveOutValueM, hin, liveOutLoop_eq_spec]

/-- C2, witness: the live-in characterization at a concrete dominator tree,
block 2 (the hypothesis — immediate dominators lie in the tree — is
discharged for the concrete `exIdom`/`exInTree`). -/
theorem c2_witness :
    getLiveInValueM exIdom exInTree exPredEmpty exLastStore exPhiMem
        exPhiArg 0 10 2
      = specLiveIn exIdom exInTree exPredEmpty exLastStore exPhiMem
          exPhiArg 0 10 2 := by
  have hIT : ∀ b d, exIdom b = some d → exInTree d = true := by
    intro b d h
    unfold exIdom at h
    split at h
    · exact absurd h (by simp)
    · split at h
      · simp only [Option.some.injEq] at h
        subst h
        decide
      · exact absurd h (by simp)
  exact (c2_theorem exIdom exInTree exPredEmpty exLastStore exPhiMem
    exPhiArg 0 hIT 10 2).1

/-! ## C4: taking loads through aggregate projections capture the slot -/

mutual

theorem isAFL_hgo (t : AddrUser) (st : AFLState) (h : st.hgo = true) :
    (isAddressForLoad t st).2.hgo = true := by
  cases t with
  | load b q =>
    simp only [isAddressForLoad]
    split <;> exact h
  | proj b k users =>
    simp only [isAddressForLoad]
    split
    · exact isAFLList_hgo users _ rfl
    · exact isAFLList_hgo users _ h
  | storeDest b => exact h
  | storeAddrSrc b => exact h
  | deallocU b => exact h
  | debugValueAddrU b => exact h
  | destroyAddrU b l => exact h
  | otherU b => exact h

theorem isAFLList_hgo (ts : List AddrUser) (st : AFLState) (h : st.hgo = true) :
    (isAddressForLoadList ts st).2.hgo = true := by
  cases ts with
  | nil => exact h
  | cons u us =>
    simp only [isAddressForLoadList]
    have h1 := isAFL_hgo u { st with sb := sbUpdate st.sb u.blk } h
    rcases hres : isAddressForLoad u { st with sb := sbUpdate st.sb u.blk } with ⟨r, st2⟩
    rw [hres] at h1
    cases r
    · exact h1
    · exact isAFLList_hgo us st2 h1

end

mutual

theorem hasAggTake_mono (t : AddrUser) (h : hasAggTake false t = true) :
    hasAggTake true t = true := by
  cases t with
  | load b q => simp [hasAggTake] at h
  | proj b k users =>
    simp only [hasAggTake] at h ⊢
    cases hagg : k.isAgg
    · rw [hagg] at h
      simp only [Bool.false_or] at h
      exact hasAggTakeList_mono users h
    · rw [hagg] at h
      simpa using h
  | storeDest b => simp [hasAggTake] at h
  | storeAddrSrc b => simp [hasAggTake] at h
  | deallocU b => simp [hasAggTake] at h
  | debugValueAddrU b => simp [hasAggTake] at h
  | destroyAddrU b l => simp [hasAggTake] at h
  | otherU b => simp [hasAggTake] at h

theorem hasAggTakeList_mono (ts : List AddrUser) (h : hasAggTakeList false ts = true) :
    hasAggTakeList true ts = true := by
  cases ts with
  | nil => simp [hasAggTakeList] at h
  | cons u us =>
    simp only [hasAggTakeList, Bool.or_eq_true] at h ⊢
    rcases h with h | h
    · exact Or.inl (hasAggTake_mono u h)
    · exact Or.inr (hasAggTakeList_mono us h)

end

mutual

theorem isAFL_fails (t : AddrUser) (st : AFLState)
    (h : hasAggTake st.hgo t = true) : (isAddressForLoad t st).1 = false := by
  cases t with
  | load b q =>
    simp only [hasAggTake, Bool.and_eq_true, decide_eq_true_eq] at h
    simp [isAddressForLoad, h.1, h.2]
  | proj b k users =>
    simp only [hasAggTake] at h
    simp only [isAddressForLoad]
    cases hagg : k.isAgg
    · rw [hagg] at h
      simp only [Bool.or_false] at h
      simp only [hagg, ProjKind.isAgg, if_neg, Bool.false_eq_true, if_false]
      exact isAFLList_fails users st h
    · rw [hagg] at h
      simp only [Bool.or_true] at h
      simp only [hagg, if_true]
      exact isAFLList_fails users { st with hgo := true } h
  | storeDest b => simp [hasAggTake] at h
  | storeAddrSrc b => simp [hasAggTake] at h
  | deallocU b => simp [hasAggTake] at h
  | debugValueAddrU b => simp [hasAggTake] at h
  | destroyAddrU b l => simp [hasAggTake] at h
  | otherU b => simp [hasAggTake] at h

theorem isAFLList_fails (ts : List AddrUser) (st : AFLState)
    (h : hasAggTakeList st.hgo ts = true) :
    (isAddressForLoadList ts st).1 = false := by
  cases ts with
  | nil => simp [hasAggTakeList] at h
  | cons u us =>
    simp only [hasAggTakeList, Bool.or_eq_true] at h
    simp only [isAddressForLoadList]
    rcases hres : isAddressForLoad u { st with sb := sbUpdate st.sb u.blk } with ⟨r, st2⟩
    cases r
    · rfl
    · rcases h with h | h
      · have := isAFL_fails u { st with sb := sbUpdate st.sb u.blk } h
        rw [hres] at this
        simp at this
      · refine isAFLList_fails us st2 ?_
        cases h2 : st2.hgo
        · have hst : st.hgo = false := by
            cases hst : st.hgo
            · rfl
            · have := isAFL_hgo u { st with sb := sbUpdate st.sb u.blk } hst
              rw [hres] at this
              rw [h2] at this
              exact absurd this (by simp)
          rw [hst] at h
          exact h
        · cases hst : st.hgo
          · rw [hst] at h
            exact hasAggTakeList_mono us h
          · rw [hst] at h
            exact h

end

theorem capturedLoop_captures (users : List AddrUser) (sb : Option Nat)
    (h : users.any (hasAggTake false) = true) :
    (capturedLoop users sb).1 = true := by
  induction users generalizing sb with
  | nil => simp at h
  | cons u us ih =>
    simp only [List.any_cons, Bool.or_eq_true] at h
    simp only [capturedLoop]
    rcases hres : isAddressForLoad u { sb := sbUpdate sb u.blk, hgo := false } with ⟨r, st2⟩
    rcases h with h | h
    · have hf := isAFL_fails u { sb := sbUpdate sb u.blk, hgo := false } h
      rw [hres] at hf
      simp only at hf
      subst hf
      cases u with
      | load b q => simp [hasAggTake] at h
      | proj b k users2 => rfl
      | storeDest b => simp [hasAggTake] at h
      | storeAddrSrc b => simp [hasAggTake] at h
      | deallocU b => simp [hasAggTake] at h
      | debugValueAddrU b => simp [hasAggTake] at h
      | destroyAddrU b l => simp [hasAggTake] at h
      | otherU b => simp [hasAggTake] at h
    · cases r
      · cases u with
        | load b q => rfl
        | proj b k users2 => rfl
        | storeDest b => exact ih _ h
        | storeAddrSrc b => rfl
        | deallocU b => exact ih _ h
        | debugValueAddrU b => exact ih _ h
        | destroyAddrU b l =>
          by_cases hl : l = true
          · simp only [hl, if_true]
            exact ih _ h
          · simp only [hl]
            simp at hl
            simp [hl]
        | otherU b => rfl
      · exact ih _ h

/-- C4.  A slot use that reaches a consuming (`take`) load through at least
one aggregate-field (struct/tuple) projection makes the capture analyzer
classify the slot as captured; and a captured slot is left unpromoted — the
orchestrator returns the function unchanged with `false`. -/
theorem c4_theorem :
    (∀ (asiBlk : Nat) (users : List AddrUser),
        users.any (hasAggTake false) = true →
        (isCapturedT asiBlk users).1 = true)
      ∧ (∀ (oracle : DomOracle) (F : Fn) (a : Nat),
          (isCapturedM F a).1 = true →
          promoteSingleAllocationM oracle F a = (F, false)) := by
  constructor
  · intro asiBlk users h
    unfold isCapturedT
    rcases hres : capturedLoop users (some asiBlk) with ⟨r, sb⟩
    have := capturedLoop_captures users (some asiBlk) h
    rw [hres] at this
    subst this
    rfl
  · intro oracle F a h
    unfold promoteSingleAllocationM
    simp [h]

/-- C4, witness: a `load [take]` behind a `struct_element_addr` captures a
concrete slot, and a concrete captured slot is returned unchanged and
unhandled by `promoteSingleAllocation`. -/
theorem c4_witness :
    ([AddrUser.proj 0 .structP [AddrUser.load 0 .take]].any (hasAggTake false) = true
        ∧ (isCapturedT 0 [AddrUser.proj 0 .structP [AddrUser.load 0 .take]]).1 = true)
      ∧ ((isCapturedM exFCap 0).1 = true
        ∧ promoteSingleAllocationM oracle1 exFCap 0 = (exFCap, false)) := by
  refine ⟨⟨by decide, ?_⟩, ⟨by decide, ?_⟩⟩
  · exact c4_theorem.1 0 _ (by decide)
  · exact c4_theorem.2 oracle1 exFCap 0 (by decide)

/-! ## C8: the single-block side output -/

theorem sbUpdate_eq_some (sb : Option Nat) (blk b : Nat) :
    sbUpdate sb blk = some b ↔ (sb = some b ∧ blk = b) := by
  unfold sbUpdate
  split
  · rename_i h
    subst h
    simp only [Option.some.injEq]
    tauto
  · rename_i h
    constructor
    · intro h2; exact absurd h2 (by simp)
    · rintro ⟨h1, rfl⟩; exact absurd h1 h

theorem allNodesIn_eq (b : Nat) (u : AddrUser) :
    allNodesIn b u = (decide (u.blk = b) && subUsersIn b u) := by
  cases u <;> simp [allNodesIn, subUsersIn, AddrUser.blk]

mutual

theorem isAFL_sb_char (t : AddrUser) (st st2 : AFLState)
    (h : isAddressForLoad t st = (true, st2)) (b : Nat) :
    st2.sb = some b ↔ (st.sb = some b ∧ subUsersIn b t = true) := by
  cases t with
  | load blk q =>
    simp only [isAddressForLoad] at h
    split at h
    · exact absurd h (by simp)
    · simp only [Prod.mk.injEq, true_and] at h
      subst h
      simp [subUsersIn]
  | proj blk k users =>
    simp only [isAddressForLoad] at h
    cases hagg : k.isAgg
    · rw [hagg] at h
      simp only [Bool.false_eq_true, if_false] at h
      simpa [subUsersIn] using isAFLList_sb_char users st st2 h b
    · rw [hagg] at h
      simp only [if_true] at h
      simpa [subUsersIn] using isAFLList_sb_char users { st with hgo := true } st2 h b
  | storeDest blk => simp [isAddressForLoad] at h
  | storeAddrSrc blk => simp [isAddressForLoad] at h
  | deallocU blk => simp [isAddressForLoad] at h
  | debugValueAddrU blk => simp [isAddressForLoad] at h
  | destroyAddrU blk l => simp [isAddressForLoad] at h
  | otherU blk => simp [isAddressForLoad] at h

theorem isAFLList_sb_char (ts : List AddrUser) (st st2 : AFLState)
    (h : isAddressForLoadList ts st = (true, st2)) (b : Nat) :
    st2.sb = some b ↔ (st.sb = some b ∧ allNodesInList b ts = true) := by
  cases ts with
  | nil =>
    simp only [isAddressForLoadList, Prod.mk.injEq, true_and] at h
    subst h
    simp [allNodesInList]
  | cons u us =>
    simp only [isAddressForLoadList] at h
    rcases hres : isAddressForLoad u { st with sb := sbUpdate st.sb u.blk } with ⟨r, stm⟩
    rw [hres] at h
    cases r
    · exact absurd h (by simp)
    · have h1 := isAFLList_sb_char us stm st2 h b
      have h2 := isAFL_sb_char u _ stm hres b
      rw [h1, h2]
      dsimp only
      rw [sbUpdate_eq_some]
      simp only [allNodesInList, allNodesIn_eq, Bool.and_eq_true,
        decide_eq_true_eq]
      tauto

end

theorem capturedLoop_sb_char (users : List AddrUser) (sb sb2 : Option Nat)
    (h : capturedLoop users sb = (false, sb2)) (b : Nat) :
    sb2 = some b ↔ (sb = some b ∧ allNodesInList b users = true) := by
  induction users generalizing sb with
  | nil =>
    simp only [capturedLoop, Prod.mk.injEq, true_and] at h
    subst h
    simp [allNodesInList]
  | cons u us ih =>
    simp only [capturedLoop] at h
    rcases hres : isAddressForLoad u { sb := sbUpdate sb u.blk, hgo := false } with ⟨r, stm⟩
    rw [hres] at h
    cases r
    · cases u with
      | load blk q => simp [isAddressForLoad] at hres
      | proj blk k users2 => exact absurd h (by simp)
      | storeDest blk =>
        simp only [isAddressForLoad, Prod.mk.injEq, true_and] at hres
        subst hres
        rw [ih _ h]
        try dsimp only
        rw [sbUpdate_eq_some]
        simp only [allNodesInList, allNodesIn_eq, subUsersIn, AddrUser.blk,
          Bool.and_eq_true, decide_eq_true_eq, Bool.and_true]
        tauto
      | storeAddrSrc blk => exact absurd h (by simp)
      | deallocU blk =>
        simp only [isAddressForLoad, Prod.mk.injEq, true_and] at hres
        subst hres
        rw [ih _ h]
        try dsimp only
        rw [sbUpdate_eq_some]
        simp only [allNodesInList, allNodesIn_eq, subUsersIn, AddrUser.blk,
          Bool.and_eq_true, decide_eq_true_eq, Bool.and_true]
        tauto
      | debugValueAddrU blk =>
        simp only [isAddressForLoad, Prod.mk.injEq, true_and] at hres
        subst hres
        rw [ih _ h]
        try dsimp only
        rw [sbUpdate_eq_some]
        simp only [allNodesInList, allNodesIn_eq, subUsersIn, AddrUser.blk,
          Bool.and_eq_true, decide_eq_true_eq, Bool.and_true]
        tauto
      | destroyAddrU blk l =>
        simp only [isAddressForLoad, Prod.mk.injEq, true_and] at hres
        subst hres
        cases l with
        | false => exact absurd h (by simp)
        | true =>
          simp only [if_true] at h
          rw [ih _ h]
          try dsimp only
          rw [sbUpdate_eq_some]
          simp only [allNodesInList, allNodesIn_eq, subUsersIn, AddrUser.blk,
            Bool.and_eq_true, decide_eq_true_eq, Bool.and_true]
          tauto
      | otherU blk => exact absurd h (by simp)
    · have h2 := isAFL_sb_char u _ stm hres b
      rw [ih _ h, h2]
      dsimp only
      rw [sbUpdate_eq_some]
      simp only [allNodesInList, allNodesIn_eq, Bool.and_eq_true,
        decide_eq_true_eq]
      tauto

/-- C8, counterexample.  A non-captured slot whose single use (a
deallocation) lies in block 1 — one common block, but not the allocation's
block 0 — is reported with `singleBlock = false`, refuting "`singleBlock` is
true exactly when every use lies in one block". -/
theorem c8_counterexample :
    isCapturedT 0 [AddrUser.deallocU 1] = (false, false)
      ∧ allNodesInList 1 [AddrUser.deallocU 1] = true := by
  constructor <;> decide

/-- C8, as amended.  For a non-captured slot, the analyzer's side output
`singleBlock` is true exactly when every use (after resolving projection
chains) lies in the *allocation's own* block — the tracker starts at
`ASI->getParent()`, so uses confined to a single different block yield
false. -/
theorem c8_amended (asiBlk : Nat) (users : List AddrUser)
    (h : (isCapturedT asiBlk users).1 = false) :
    (isCapturedT asiBlk users).2 = true ↔ allNodesInList asiBlk users = true := by
  unfold isCapturedT at h ⊢
  rcases hres : capturedLoop users (some asiBlk) with ⟨r, sb2⟩
  cases r
  · have hc := capturedLoop_sb_char users (some asiBlk) sb2 hres asiBlk
    show sb2.isSome = true ↔ _
    rw [Option.isSome_iff_exists]
    constructor
    · rintro ⟨b, hb⟩
      have hb2 := capturedLoop_sb_char users (some asiBlk) sb2 hres b
      rw [hb2] at hb
      have : asiBlk = b := by
        have := hb.1
        simpa using this
      subst this
      exact hb.2
    · intro hall
      exact ⟨asiBlk, hc.mpr ⟨rfl, hall⟩⟩
  · rw [hres] at h
    simp at h

/-- C8, witness for the amended theorem: a slot with a store and a
`debug_value_addr` in its own block. -/
theorem c8_witness :
    (isCapturedT 0 [AddrUser.storeDest 0, AddrUser.debugValueAddrU 0]).1 = false
      ∧ ((isCapturedT 0 [AddrUser.storeDest 0, AddrUser.debugValueAddrU 0]).2 = true
          ↔ allNodesInList 0 [AddrUser.storeDest 0, AddrUser.debugValueAddrU 0] = true) :=
  ⟨by decide, c8_amended 0 _ (by decide)⟩

/-! ## C5: idempotence of the whole pass -/

theorem runGo_no_alloc (oracle : DomOracle) (fuel : Nat) :
    ∀ (F : Fn) (bi pos : Nat) (ch : Bool), hasAllocF F = false →
    runGo oracle fuel F bi pos ch = (F, ch) := by
  induction fuel with
  | zero => intro F bi pos ch h; rfl
  | succ f ih =>
    intro F bi pos ch h
    simp only [runGo]
    cases hb : F.get? bi with
    | none => rfl
    | some blk =>
      dsimp only
      cases hi : blk.insts.get? pos with
      | none => exact ih F (bi + 1) 0 ch h
      | some i =>
        dsimp only
        cases hk : i.k with
        | alloc t =>
          exfalso
          have hblk : blk ∈ F := List.get?_mem hb
          have hins : i ∈ blk.insts := List.get?_mem hi
          have h3 : ¬ (blk.insts.any (fun j =>
              match j.k with
              | .alloc _ => true
              | _ => false) = true) := by
            simp only [hasAllocF, List.any_eq_false] at h
            exact h blk hblk
          apply h3
          rw [List.any_eq_true]
          exact ⟨i, hins, by simp [hk]⟩
        | load addr q res => exact ih F bi (pos + 1) ch h
        | store src dest q => exact ih F bi (pos + 1) ch h
        | debugValueAddr addr => exact ih F bi (pos + 1) ch h
        | debugValue v => exact ih F bi (pos + 1) ch h
        | destroyAddr addr => exact ih F bi (pos + 1) ch h
        | destroyValue v => exact ih F bi (pos + 1) ch h
        | dealloc addr => exact ih F bi (pos + 1) ch h
        | term ts => exact ih F bi (pos + 1) ch h
        | other ops => exact ih F bi (pos + 1) ch h

/-- C5, counterexample.  A second run over a function already processed by a
first run can report `changed = true`: on the tolerated ill-formed
single-block function with two deallocations, the first run leaves the
`alloc_stack` alive (with the reinserted and the surviving deallocations),
and the second run eliminates it as write-only and reports another change. -/
theorem c5_counterexample :
    (memToRegRunM oracle1 exF0).2 = true
      ∧ (memToRegRunM oracle1 (memToRegRunM oracle1 exF0).1).2 = true := by
  constructor <;> decide

/-- C5, as amended.  A second run reports `changed = false` provided the
first run eliminated every `alloc_stack` instruction; when a single-block
slot retains uses and a deallocation is reinserted, the `alloc_stack`
survives the first run and the second run removes it as write-only,
reporting `changed = true`. -/
theorem c5_amended (oracle : DomOracle) (F : Fn)
    (h : hasAllocF (memToRegRunM oracle F).1 = false) :
    (memToRegRunM oracle (memToRegRunM oracle F).1).2 = false := by
  have h2 := runGo_no_alloc oracle (runFuel (memToRegRunM oracle F).1)
    (memToRegRunM oracle F).1 0 0 false h
  have h3 : memToRegRunM oracle (memToRegRunM oracle F).1
      = ((memToRegRunM oracle F).1, false) := h2
  rw [h3]

/-- C5, witness for the amended theorem: the well-formed single-block
function is fully eliminated by the first run, and the second run reports no
change. -/
theorem c5_witness :
    hasAllocF (memToRegRunM oracle1 exF1).1 = false
      ∧ (memToRegRunM oracle1 (memToRegRunM oracle1 exF1).1).2 = false :=
  ⟨by decide, c5_amended oracle1 exF1 (by decide)⟩

/-! ## C9: the reinserted deallocation for a slot retaining uses -/

theorem followsAllocDealloc_cons (a : Nat) (i j : MInst) (t : List MInst)
    (h : followsAllocDealloc a (j :: t) = true) :
    followsAllocDealloc a (i :: j :: t) = true := by
  simp only [followsAllocDealloc, Bool.or_eq_true]
  exact Or.inr h

theorem insertAfterAlloc_follows (a nid : Nat) (l : List MInst)
    (h : l.any (MInst.isAllocOf a) = true) :
    followsAllocDealloc a (insertAfterAlloc a nid l) = true := by
  induction l with
  | nil => simp at h
  | cons i rest ih =>
    simp only [List.any_cons, Bool.or_eq_true] at h
    simp only [insertAfterAlloc]
    by_cases hi : i.isAllocOf a = true
    · simp only [hi, if_true]
      simp [followsAllocDealloc, hi]
    · rcases h with h | h
      · exact absurd h hi
      · simp only [hi, Bool.false_eq_true, if_false]
        cases rest with
        | nil => simp at h
        | cons j rs =>
          have hrest := ih h
          rcases hsplit : insertAfterAlloc a nid (j :: rs) with _ | ⟨j2, t⟩
          · simp only [insertAfterAlloc] at hsplit
            split at hsplit <;> simp at hsplit
          · rw [hsplit] at hrest
            exact followsAllocDealloc_cons a i j2 t hrest

theorem insertDealloc_deallocAfter (F : Fn) (a nid : Nat)
    (h : allocPresent F a = true) :
    deallocAfterAllocF (insertDeallocAfterM F a nid) a = true := by
  have hex : ∃ p ∈ F.enum, (fun p : Nat × MBlock =>
      p.2.insts.any (MInst.isAllocOf a)) p = true := by
    unfold allocPresent at h
    rw [List.any_eq_true] at h
    obtain ⟨blk, hmem, hblk⟩ := h
    obtain ⟨n, hn⟩ := List.mem_iff_get?.mp hmem
    refine ⟨(n, blk), ?_, hblk⟩
    rw [List.mk_mem_enum_iff_getElem?]
    rw [← List.get?_eq_getElem?]
    exact hn
  have hfind : (F.enum.find? (fun p => p.2.insts.any (MInst.isAllocOf a))).isSome := by
    rw [List.find?_isSome]
    exact hex
  obtain ⟨q, hq⟩ := Option.isSome_iff_exists.mp hfind
  have hpred0 := List.find?_some hq
  have hpred : q.2.insts.any (MInst.isAllocOf a) = true := hpred0
  have hqmem : q ∈ F.enum := List.mem_of_find?_eq_some hq
  have hparent : allocParent F a = q.1 := by
    unfold allocParent findAllocBlk
    rw [hq]
    rfl
  unfold insertDeallocAfterM deallocAfterAllocF
  rw [List.any_eq_true]
  refine ⟨{ q.2 with insts := insertAfterAlloc a nid q.2.insts }, ?_, ?_⟩
  · unfold updateBlock
    rw [hparent]
    have := List.mem_map_of_mem
      (fun p : Nat × MBlock => if p.1 = q.1 then
        { p.2 with insts := insertAfterAlloc a nid p.2.insts } else p.2) hqmem
    simpa using this
  · exact insertAfterAlloc_follows a nid q.2.insts hpred

/-- C9.  When a single-block-confined, non-captured, non-write-only slot
still has remaining uses after the single-block elimination, the pass does
not fail: `promoteSingleAllocation` inserts a new `dealloc_stack`
immediately after the `alloc_stack` and still returns success for the
slot. -/
theorem c9_theorem (oracle : DomOracle) (F : Fn) (a : Nat)
    (h1 : isCapturedM F a = (false, true))
    (h2 : isWriteOnlyM F a = false)
    (h3 : useEmptyF (removeSingleBlockAllocationM F a) a = false)
    (h4 : allocPresent (removeSingleBlockAllocationM F a) a = true) :
    (promoteSingleAllocationM oracle F a).2 = true
      ∧ deallocAfterAllocF (promoteSingleAllocationM oracle F a).1 a = true := by
  have hstep : promoteSingleAllocationM oracle F a
      = (insertDeallocAfterM (removeSingleBlockAllocationM F a) a
          (maxIdF (removeSingleBlockAllocationM F a) + 1), true) := by
    unfold promoteSingleAllocationM
    rw [h1]
    simp [h2, h3]
  rw [hstep]
  exact ⟨rfl, insertDealloc_deallocAfter _ a _ h4⟩

/-- C9, witness: the ill-formed two-dealloc function. -/
theorem c9_witness :
    (isCapturedM exF0 0 = (false, true)
        ∧ isWriteOnlyM exF0 0 = false
        ∧ useEmptyF (removeSingleBlockAllocationM exF0 0) 0 = false
        ∧ allocPresent (removeSingleBlockAllocationM exF0 0) 0 = true)
      ∧ (promoteSingleAllocationM oracle1 exF0 0).2 = true
      ∧ deallocAfterAllocF (promoteSingleAllocationM oracle1 exF0 0).1 0 = true := by
  refine ⟨⟨by decide, by decide, by decide, by decide⟩, ?_⟩
  exact c9_theorem oracle1 exF0 0 (by decide) (by decide) (by decide) (by decide)

end Mem2Reg
